import Mathlib

/-!
# Verification of the `json` value model, parser and serializer

A shallow embedding of the single-header JSON library (`json.hpp`): the
tagged-union value representation (`smartUnion` specialised to the six
JSON variants), the recursive-descent parser (`json::parse` and its
per-variant sub-parsers), the serializer (`json::to_string`) and the
accessor API (`get<T>`, `operator[]`, `size`).

Modelling conventions:
* Text is `List Char`.  C++ `std::string::operator[]` at `size()` returns
  the terminating `'\0'`; reads in the source never go further, so the
  total access `getc` returns `'\0'` out of bounds.
* `Number` (C++ `double`) is modelled as an exact rational `ℚ`.
  `std::to_string(double)` (i.e. `%f` formatting, six fixed decimals) and
  `std::stod`'s decimal scan are modelled exactly on decimal literals;
  IEEE-754 binary rounding, overflow, hexadecimal literals and the
  `inf`/`nan` forms are outside the model.
* `Object` (C++ `std::unordered_map<std::string, json>`) is modelled as an
  association list in insertion order with unique keys;
  `std::unordered_map::insert` does not replace an existing key, which
  `objInsert` mirrors.
* The mutually recursive parse loops are defined with an explicit fuel
  parameter; `parse` supplies `length + 2`, and the round-trip proofs show
  this fuel is never exhausted on serializer output.
-/

/-- C-locale `isspace`: space, tab, newline, vertical tab, form feed,
carriage return. -/
def jIsSpace (c : Char) : Bool :=
  c = ' ' || c = '\t' || c = '\n' || c = '\x0b' || c = '\x0c' || c = '\r'

/-- `txt[i]` with the C++ `std::string` convention that reading at
`size()` yields the terminating `'\0'` (reads never go further in the
source). -/
def getc (txt : List Char) (i : Nat) : Char :=
  (txt.drop i).headD '\x00'

/-- The loop of `json::skipSpaces`: advance while inside the text and on a
whitespace character.  The structural fuel argument only bounds the number
of iterations; the loop runs while `j < txt.length`, so any fuel
`≥ txt.length` is never exhausted. -/
def skipSpacesF : Nat → List Char → Nat → Nat
  | 0, _, j => j
  | f + 1, txt, j =>
    if j < txt.length ∧ jIsSpace (getc txt j) then skipSpacesF f txt (j + 1) else j

/-- `json::skipSpaces(txt, index)`: pre-increments `index`, then advances
past whitespace, stopping at the first non-space character or end of
input.  Note position `index` itself is never inspected. -/
def skipSpaces (txt : List Char) (i : Nat) : Nat :=
  skipSpacesF (txt.length + 1) txt (i + 1)

/-- `json::json_type`: the tag enum of the tagged union. -/
inductive JType where
  | null | boolean | number | string | array | object
deriving DecidableEq, Repr

/-- The JSON value tree: one constructor per variant of
`smartUnion<json_type, json_type::null, Boolean, Number, String, Array,
Object>`.  `Object` is an insertion-ordered association list with unique
keys (modelling `std::unordered_map`). -/
inductive Value where
  | null : Value
  | boolean : Bool → Value
  | number : ℚ → Value
  | string : List Char → Value
  | array : List Value → Value
  | object : List (List Char × Value) → Value
deriving Repr

mutual

/-- Structural equality of values (the `==` of the model). -/
def valueBEq : Value → Value → Bool
  | .null, .null => true
  | .boolean a, .boolean b => a == b
  | .number a, .number b => a == b
  | .string a, .string b => a == b
  | .array a, .array b => valueListBEq a b
  | .object a, .object b => valuePairsBEq a b
  | _, _ => false

/-- Structural equality of value lists. -/
def valueListBEq : List Value → List Value → Bool
  | [], [] => true
  | a :: as, b :: bs => valueBEq a b && valueListBEq as bs
  | _, _ => false

/-- Structural equality of key-value entry lists. -/
def valuePairsBEq : List (List Char × Value) → List (List Char × Value) → Bool
  | [], [] => true
  | (k, a) :: as, (l, b) :: bs => k == l && valueBEq a b && valuePairsBEq as bs
  | _, _ => false

end

theorem valueBEq_iff : ∀ a b : Value, valueBEq a b = true ↔ a = b := by
  have key : ∀ n, ∀ a b : Value, sizeOf a ≤ n → (valueBEq a b = true ↔ a = b) := by
    intro n
    induction n with
    | zero => intro a _ h; cases a <;> simp at h
    | succ n ih =>
      intro a b hsz
      have hlist : ∀ as bs : List Value, sizeOf as ≤ n →
          (valueListBEq as bs = true ↔ as = bs) := by
        intro as
        induction as with
        | nil => intro bs _; cases bs <;> simp [valueListBEq]
        | cons x xs ihx =>
          intro bs hs
          cases bs with
          | nil => simp [valueListBEq]
          | cons y ys =>
            have h1 : sizeOf x ≤ n := by
              have := List.cons.sizeOf_spec x xs; omega
            have h2 : sizeOf xs ≤ n := by
              have := List.cons.sizeOf_spec x xs; omega
            simp only [valueListBEq, Bool.and_eq_true, ih x y h1, ihx ys h2,
              List.cons.injEq]
      have hpairs : ∀ ma mb : List (List Char × Value), sizeOf ma ≤ n →
          (valuePairsBEq ma mb = true ↔ ma = mb) := by
        intro ma
        induction ma with
        | nil => intro mb _; cases mb <;> simp [valuePairsBEq]
        | cons x xs ihx =>
          intro mb hs
          cases mb with
          | nil => cases x; simp [valuePairsBEq]
          | cons y ys =>
            obtain ⟨k, a⟩ := x
            obtain ⟨l, b⟩ := y
            have h1 : sizeOf a ≤ n := by
              have h2 := List.cons.sizeOf_spec (k, a) xs
              have h3 : sizeOf (k, a) = 1 + sizeOf k + sizeOf a := rfl
              omega
            have h2 : sizeOf xs ≤ n := by
              have := List.cons.sizeOf_spec (k, a) xs; omega
            simp only [valuePairsBEq, Bool.and_eq_true, beq_iff_eq, ih a b h1,
              ihx ys h2, List.cons.injEq, Prod.mk.injEq]
      cases a <;> cases b <;>
        simp only [valueBEq, beq_iff_eq, Value.boolean.injEq,
          Value.number.injEq, Value.string.injEq, Value.array.injEq,
          Value.object.injEq] <;>
        try simp
      case array.array as bs =>
        have ha : sizeOf as ≤ n := by
          have := Value.array.sizeOf_spec as; omega
        exact hlist as bs ha
      case object.object ma mb =>
        have ha : sizeOf ma ≤ n := by
          have := Value.object.sizeOf_spec ma; omega
        exact hpairs ma mb ha
  exact fun a b => key (sizeOf a) a b le_rfl

instance : DecidableEq Value := fun a b => decidable_of_iff _ (valueBEq_iff a b)

deriving instance DecidableEq for Except

/-- `smartUnion::type` / `json::getType()`: the active variant tag. -/
def tagOf : Value → JType
  | .null => .null
  | .boolean _ => .boolean
  | .number _ => .number
  | .string _ => .string
  | .array _ => .array
  | .object _ => .object

/-- Error taxonomy of the header: the distinct `throw` sites of
`json.hpp`. -/
inductive JErr where
  /-- `parse`: `"Invalid json (empty string)"` for `length < 2`. -/
  | emptyString : JErr
  /-- `parse`: `"Invalid json"` when the dispatch character is neither
  `{` nor `[`. -/
  | invalidJson : JErr
  /-- `getParser`: `"Invalid symbole begin: c"`. -/
  | invalidSymbol : Char → JErr
  /-- `parsingError(txt, index)`: carries the offending character and its
  index. -/
  | parseErr : Char → Nat → JErr
  /-- `std::stod` failure (`std::invalid_argument`). -/
  | stodErr : JErr
  /-- `smartUnion::get` / `json::castError`: carries the requested and the
  actual variant tag. -/
  | typeMismatch (requested actual : JType) : JErr
  /-- `operator[](size_t)` out-of-range: carries index and length. -/
  | outOfRange (index length : Nat) : JErr
  /-- `Object::at` on an absent key. -/
  | keyNotFound : JErr
  /-- fuel exhaustion of the embedded parse loops (never reached with the
  fuel `parse` supplies on the inputs the theorems consider). -/
  | fuel : JErr
deriving DecidableEq, Repr

/-- The data types `Ts` of the union (`isAnyOf<T, Boolean, Number, String,
Array, Object>`); `null` is not an accessible payload type. -/
inductive DType where
  | dBoolean | dNumber | dString | dArray | dObject
deriving DecidableEq, Repr

/-- `smartUnion::find_type<T>`: the enum value `(E)(idx + 1)` of a payload
type. -/
def DType.toJType : DType → JType
  | .dBoolean => .boolean
  | .dNumber => .number
  | .dString => .string
  | .dArray => .array
  | .dObject => .object

/-- The payload carried by each data type. -/
def DPayload : DType → Type
  | .dBoolean => Bool
  | .dNumber => ℚ
  | .dString => List Char
  | .dArray => List Value
  | .dObject => List (List Char × Value)

/-- `smartUnion::get<T>()`: returns the payload when the requested type's
tag equals the active tag, otherwise throws carrying the requested and the
actual tag. -/
def suGet : (t : DType) → Value → Except JErr (DPayload t)
  | .dBoolean, .boolean b => .ok b
  | .dNumber, .number q => .ok q
  | .dString, .string s => .ok s
  | .dArray, .array xs => .ok xs
  | .dObject, .object m => .ok m
  | t, v => .error (.typeMismatch t.toJType (tagOf v))

/-- `smartUnion::using_pointer`: a payload is heap-boxed iff
`sizeof(T) > sizeof(void*)`.  On the 64-bit targets the header assumes:
`bool` (1) and `double` (8) are stored inline, `std::string` (32),
`std::vector` (24) and `std::unordered_map` (56) are heap-boxed. -/
def usingPointer : JType → Bool
  | .string => true
  | .array => true
  | .object => true
  | _ => false

/-- `smartUnion`'s move constructor: the destination adopts tag and data;
the source is reset to the null state only when the payload is heap-boxed
(`using_pointer`), otherwise it keeps its tag and bits.  Result:
`(destination, source after the move)`. -/
def moveConstruct (src : Value) : Value × Value :=
  (src, if usingPointer (tagOf src) then Value.null else src)

/-- `smartUnion`'s move assignment: frees the destination's payload, adopts
the source's tag and data, and unconditionally resets the source to the
null state.  Result: `(destination, source after the move)`. -/
def moveAssign (_dst src : Value) : Value × Value :=
  (src, Value.null)

/-- `json::operator[](const size_t)`: requires the active variant to be
Array (otherwise `castError(array)`), then bound-checks the index
(otherwise `std::out_of_range` carrying index and length). -/
def atIndex (v : Value) (i : Nat) : Except JErr Value :=
  match v with
  | .array xs =>
    if h : i < xs.length then .ok (xs.get ⟨i, h⟩)
    else .error (.outOfRange i xs.length)
  | _ => .error (.typeMismatch .array (tagOf v))

/-- `json::size()`: element count for Array, entry count for Object,
otherwise `castError(array)`. -/
def jsize (v : Value) : Except JErr Nat :=
  match v with
  | .array xs => .ok xs.length
  | .object m => .ok m.length
  | _ => .error (.typeMismatch .array (tagOf v))

/-- `std::unordered_map::insert({name, value})`: inserts only when no
entry with the key exists; an existing key keeps its prior value. -/
def objInsert (m : List (List Char × Value)) (k : List Char) (v : Value) :
    List (List Char × Value) :=
  if m.any (fun p => p.1 == k) then m else m ++ [(k, v)]

/-! ## Decimal rendering and scanning of numbers

`json::to_string` renders a Number with `std::to_string(double)`, i.e.
`%f` formatting: optional minus sign, integer digits, a decimal point and
exactly six fractional digits.  `json::parseNumber` delegates to
`std::stod`.  Both are modelled over exact rationals. -/

/-- Digit-accumulation loop for decimal rendering; the structural fuel
argument only bounds the number of divisions by ten, so any fuel `≥ n`
is never exhausted. -/
def natDigitsF : Nat → Nat → List Char → List Char
  | 0, _, acc => acc
  | f + 1, n, acc =>
    if n = 0 then acc else natDigitsF f (n / 10) (Nat.digitChar (n % 10) :: acc)

/-- Decimal rendering of a natural number, most significant digit first
(`"0"` for zero). -/
def natDigits (n : Nat) : List Char :=
  if n = 0 then ['0'] else natDigitsF (n + 1) n []

/-- Numeric value of a list of decimal digit characters. -/
def digitsVal (ds : List Char) : Nat :=
  ds.foldl (fun a c => 10 * a + (c.toNat - 48)) 0

/-- The six fractional digits of `%f`: the decimal rendering of
`n < 10^6`, left-padded with zeros to width six. -/
def pad6 (n : Nat) : List Char :=
  List.replicate (6 - (natDigits n).length) '0' ++ natDigits n

/-- The value `|q| · 10⁶` rounded half-up
(`⌊(2·|num|·10⁶ + den) / (2·den)⌋`), standing for the correct rounding
`%f` performs on the binary double value. -/
def rnScaled (q : ℚ) : Nat :=
  (2 * (q.num.natAbs * 1000000) + q.den) / (2 * q.den)

/-- `std::to_string(double)` (`%f`): sign, integer part, `'.'`, six
fractional digits.  The double is modelled as the exact rational
`q = q.num / q.den`. -/
def renderNum (q : ℚ) : List Char :=
  (if q.num < 0 then ['-'] else []) ++
    natDigits (rnScaled q / 1000000) ++ '.' :: pad6 (rnScaled q % 1000000)

/-- The scan of `std::stod` (`strtod`'s decimal form), returning the value
and the number of characters consumed, or `none` when no conversion is
possible.  Modelled: leading whitespace, optional sign, integer digits,
optional fraction, optional well-formed exponent (a malformed exponent
part is not consumed, as in `strtod`).  Not modelled: hexadecimal floats
and the `inf`/`nan` forms, which no JSON text produced by the serializer
contains. -/
def scanNum (s : List Char) : Option (ℚ × Nat) :=
  let ws := s.takeWhile jIsSpace
  let s1 := s.drop ws.length
  let c1 := s1.headD '\x00'
  let (sgn, nSgn) : ℤ × Nat :=
    if c1 = '-' then (-1, 1) else if c1 = '+' then (1, 1) else (1, 0)
  let s2 := s1.drop nSgn
  let d1 := s2.takeWhile Char.isDigit
  let s3 := s2.drop d1.length
  let (d2, nFrac) : List Char × Nat :=
    if s3.headD '\x00' = '.' then
      let d := s3.tail.takeWhile Char.isDigit
      (d, 1 + d.length)
    else ([], 0)
  if d1.isEmpty ∧ d2.isEmpty then none
  else
    let s4 := s3.drop nFrac
    let (ex, nExp) : ℤ × Nat :=
      if s4.headD '\x00' = 'e' ∨ s4.headD '\x00' = 'E' then
        let t := s4.tail
        let (esgn, nESgn) : ℤ × Nat :=
          if t.headD '\x00' = '-' then (-1, 1)
          else if t.headD '\x00' = '+' then (1, 1)
          else (1, 0)
        let ed := (t.drop nESgn).takeWhile Char.isDigit
        if ed.isEmpty then (0, 0) else (esgn * (digitsVal ed : ℤ), 1 + nESgn + ed.length)
      else (0, 0)
    let mantAbs : Nat := digitsVal d1 * 10 ^ d2.length + digitsVal d2
    let (numAbs, den) : Nat × Nat :=
      if 0 ≤ ex then (mantAbs * 10 ^ ex.toNat, 10 ^ d2.length)
      else (mantAbs, 10 ^ d2.length * 10 ^ (-ex).toNat)
    some (mkRat (sgn * (numAbs : ℤ)) den, ws.length + nSgn + d1.length + nFrac + nExp)

/-! ## The recursive-descent parser

`json::parse` and its sub-parsers.  The C++ threads a mutable `index` by
reference with the convention that every sub-parser leaves it on the last
character it consumed; the embedding threads the index by value and
returns it next to the parsed value.  The mutually recursive loops take a
structural fuel parameter that bounds loop iterations and nesting depth;
`parse` supplies more fuel than any input of its length can consume. -/

/-- `strncmp(&txt[i], pat, pat.length) == 0` (with `txt`'s terminating
`'\0'` making any short remainder compare unequal): the characters of
`pat` occur in `txt` starting at position `i`. -/
def matchAt (txt : List Char) (i : Nat) (pat : List Char) : Bool :=
  (txt.drop i).take pat.length == pat

/-- The six per-variant sub-parsers reachable from `json::getParser`'s
function-pointer table. -/
inductive ParserKind where
  | pObject | pArray | pString | pBoolean | pNumber | pNull
deriving DecidableEq, Repr

/-- `json::getParser(begin)`: lookahead dispatch on the first character:
`{` object, `[` array, `"` string, `t`/`f` boolean, `0`-`9` number,
`n` null, anything else `"Invalid symbole begin"`. -/
def getParser (c : Char) : Except JErr ParserKind :=
  if c = '{' then .ok .pObject
  else if c = '[' then .ok .pArray
  else if c = '"' then .ok .pString
  else if c = 't' ∨ c = 'f' then .ok .pBoolean
  else if '0' ≤ c ∧ c ≤ '9' then .ok .pNumber
  else if c = 'n' then .ok .pNull
  else .error (.invalidSymbol c)

/-- The character-collecting loop of `json::parseString`: pre-increment,
stop at `'"'`, otherwise append the character and fail if fewer than two
characters follow it.  Fuel `≥ txt.length` is never exhausted since the
loop aborts near the end of the text. -/
def parseStrLoopF : Nat → List Char → Nat → List Char → Except JErr (List Char × Nat)
  | 0, _, _, _ => .error .fuel
  | f + 1, txt, j, acc =>
    let c := getc txt j
    if c = '"' then .ok (acc, j)
    else
      let acc' := acc ++ [c]
      if j + 2 ≥ txt.length then .error (.parseErr c j)
      else parseStrLoopF f txt (j + 1) acc'

/-- The key-collecting loop of `json::parseObject`
(`for (++index; index < len && txt[index] != '"'; index++)`): collect
characters verbatim until a quote or end of input, returning the key and
the final index.  Fuel `≥ txt.length` is never exhausted. -/
def scanKeyF : Nat → List Char → Nat → List Char → List Char × Nat
  | 0, _, j, acc => (acc, j)
  | f + 1, txt, j, acc =>
    if j < txt.length ∧ getc txt j ≠ '"' then scanKeyF f txt (j + 1) (acc ++ [getc txt j])
    else (acc, j)

mutual

/-- One sub-parser invocation `f(txt, index)` (the function pointer `f`
named by `ParserKind`); returns the value and the index of the last
character consumed.
* `pNull` (`json::parseNull`): requires `txt.length > index + 3` and the
  literal `null`; advances by three.
* `pBoolean` (`json::parseBoolean`): `strncmp` against `false` then
  `true`; advances by four resp. three.
* `pNumber` (`json::parseNumber`): `std::stod` from the current position;
  `index += parsedChars - 1`.
* `pString` (`json::parseString`): the quote-terminated collection loop.
* `pArray` (`json::parseArray`): skip spaces, pick one element parser by
  lookahead, step back one, then the comma-driven element loop.
* `pObject` (`json::parseObject`): the comma-driven member loop. -/
def parseVal : Nat → ParserKind → List Char → Nat → Except JErr (Value × Nat)
  | 0, _, _, _ => .error .fuel
  | f + 1, k, txt, i =>
    match k with
    | .pNull =>
      if i + 3 < txt.length ∧ matchAt txt i "null".data then .ok (.null, i + 3)
      else .error (.parseErr (getc txt i) i)
    | .pBoolean =>
      if i < txt.length then
        if matchAt txt i "false".data then .ok (.boolean false, i + 4)
        else if matchAt txt i "true".data then .ok (.boolean true, i + 3)
        else .error (.parseErr (getc txt i) i)
      else .error (.parseErr (getc txt i) i)
    | .pNumber =>
      match scanNum (txt.drop i) with
      | none => .error .stodErr
      | some (q, n) => .ok (.number q, i + n - 1)
    | .pString =>
      match parseStrLoopF (txt.length + 1) txt (i + 1) [] with
      | .error e => .error e
      | .ok (s, j) => .ok (.string s, j)
    | .pArray =>
      let i1 := skipSpaces txt i
      match getParser (getc txt i1) with
      | .error e => .error e
      | .ok k' => arrLoop f k' txt (i1 - 1) []
    | .pObject => objLoop f txt i []

/-- The do-while loop of `json::parseArray`: skip spaces, parse one
element with the fixed parser `k`, skip spaces, continue while the
current character is a comma (and inside the text). -/
def arrLoop : Nat → ParserKind → List Char → Nat → List Value → Except JErr (Value × Nat)
  | 0, _, _, _, _ => .error .fuel
  | f + 1, k, txt, i, acc =>
    let i1 := skipSpaces txt i
    match parseVal f k txt i1 with
    | .error e => .error e
    | .ok (v, i2) =>
      let i3 := skipSpaces txt i2
      if getc txt i3 = ',' ∧ i3 < txt.length then arrLoop f k txt i3 (acc ++ [v])
      else .ok (.array (acc ++ [v]), i3)

/-- The do-while loop of `json::parseObject`: skip spaces; a `}` completes
the object; otherwise scan a quoted key, skip spaces twice (moving past
the colon onto the value), dispatch a value parser by lookahead, insert
the pair (`std::unordered_map::insert`: a repeated key keeps its prior
value), skip spaces, continue while the current character is a comma. -/
def objLoop : Nat → List Char → Nat → List (List Char × Value) → Except JErr (Value × Nat)
  | 0, _, _, _ => .error .fuel
  | f + 1, txt, i, acc =>
    let i1 := skipSpaces txt i
    if getc txt i1 = '}' then .ok (.object acc, i1)
    else
      let kv := scanKeyF (txt.length + 1) txt (i1 + 1) []
      let i3 := skipSpaces txt kv.2
      let i4 := skipSpaces txt i3
      match getParser (getc txt i4) with
      | .error e => .error e
      | .ok k =>
        match parseVal f k txt i4 with
        | .error e => .error e
        | .ok (v, i5) =>
          let acc' := objInsert acc kv.1 v
          let i6 := skipSpaces txt i5
          if getc txt i6 = ',' ∧ i6 < txt.length then objLoop f txt i6 acc'
          else .ok (.object acc', i6)

end

/-- The index `json::parse` dispatches on: position 0 when it holds `{`
or `[`, otherwise the landing position of `skipSpaces` started at 0
(which never re-inspects position 0). -/
def dispatchIndex (txt : List Char) : Nat :=
  if getc txt 0 ≠ '{' ∧ getc txt 0 ≠ '[' then skipSpaces txt 0 else 0

/-- `json::parse(txt)`: reject texts shorter than two characters; then
dispatch on the character at `dispatchIndex`: `{` parses an object, `[`
parses an array, anything else is `"Invalid json"`.  The fuel
`txt.length + 3` is never exhausted (loop iterations and nesting each
advance the index into the text). -/
def parse (txt : List Char) : Except JErr Value :=
  if txt.length < 2 then .error .emptyString
  else if getc txt (dispatchIndex txt) = '{' then
    (parseVal (txt.length + 3) .pObject txt (dispatchIndex txt)).map Prod.fst
  else if getc txt (dispatchIndex txt) = '[' then
    (parseVal (txt.length + 3) .pArray txt (dispatchIndex txt)).map Prod.fst
  else .error .invalidJson

/-! ## The serializer

`json::to_string(out, indent)`.  For `indent < 0` (compact mode) the
conditionals select empty indentation and line-break strings and leave
`indent` untouched; for `indent ≥ 0` the member initializer
`std::string(++indent, tab)` increments the level passed to children and
the closing bracket is preceded by `std::string(--indent, tab)` tabs. -/

mutual

/-- `json::to_string`: `null`; `true`/`false`; `std::to_string(double)`;
`'"' + s + '"'` (no escaping); `[`/`{` + line break + items + closing
tabs + `]`/`}`. -/
def toStr : Value → Int → List Char
  | .null, _ => ['n', 'u', 'l', 'l']
  | .boolean b, _ => if b then ['t', 'r', 'u', 'e'] else ['f', 'a', 'l', 's', 'e']
  | .number q, _ => renderNum q
  | .string s, _ => '"' :: s ++ ['"']
  | .array xs, indent =>
    let lvl := if indent < 0 then indent else indent + 1
    let tabs : List Char := if indent < 0 then [] else List.replicate lvl.toNat '\t'
    let brk : List Char := if indent < 0 then [] else ['\n']
    let close : List Char := if indent < 0 then [] else List.replicate indent.toNat '\t'
    '[' :: brk ++ serSeq xs lvl tabs brk ++ close ++ [']']
  | .object m, indent =>
    let lvl := if indent < 0 then indent else indent + 1
    let tabs : List Char := if indent < 0 then [] else List.replicate lvl.toNat '\t'
    let brk : List Char := if indent < 0 then [] else ['\n']
    let close : List Char := if indent < 0 then [] else List.replicate indent.toNat '\t'
    '{' :: brk ++ serPairs m lvl tabs brk ++ close ++ ['}']

/-- The element loop of `to_string` for arrays: each element is preceded
by the indentation and followed by `"," + lineBreak`, except the last,
which is followed by the line break only. -/
def serSeq : List Value → Int → List Char → List Char → List Char
  | [], _, _, _ => []
  | [x], lvl, tabs, brk => tabs ++ toStr x lvl ++ brk
  | x :: y :: t, lvl, tabs, brk =>
    tabs ++ toStr x lvl ++ ',' :: brk ++ serSeq (y :: t) lvl tabs brk

/-- The member loop of `to_string` for objects: each member is rendered as
`indentTabs + '"' + key + "\": " + value` — note the space after the
colon, emitted in compact mode too. -/
def serPairs : List (List Char × Value) → Int → List Char → List Char → List Char
  | [], _, _, _ => []
  | [(k, x)], lvl, tabs, brk =>
    tabs ++ '"' :: k ++ '"' :: ':' :: ' ' :: toStr x lvl ++ brk
  | (k, x) :: p :: t, lvl, tabs, brk =>
    tabs ++ '"' :: k ++ '"' :: ':' :: ' ' :: toStr x lvl ++ ',' :: brk ++
      serPairs (p :: t) lvl tabs brk

end

/-- Compact serialization: `to_string` at `indent = -1`, the mode the
round-trip law quantifies over. -/
def toStrC (v : Value) : List Char := toStr v (-1)

/-- Compact serialization of an array's element sequence. -/
def serSeqC (xs : List Value) : List Char := serSeq xs (-1) [] []

/-- Compact serialization of an object's member sequence. -/
def serPairsC (m : List (List Char × Value)) : List Char := serPairs m (-1) [] []

/-- The sub-parser that recognises each variant's serialized form (the
`ParserKind` that `getParser` picks on the first character the serializer
emits for the variant). -/
def kindOf : Value → ParserKind
  | .null => .pNull
  | .boolean _ => .pBoolean
  | .number _ => .pNumber
  | .string _ => .pString
  | .array _ => .pArray
  | .object _ => .pObject

/-! ## Typed access (claim C2) -/

/-- C2: for every constructed Value and every payload type in
`{Boolean, Number, String, Array, Object}`, `get<T>()` succeeds (returning
exactly the stored payload, with no conversion) iff `T` matches the active
variant tag, and on every mismatch it fails with the type-mismatch error
carrying both the requested and the actual variant. -/
theorem c2_get_iff_variant_matches :
    (∀ (t : DType) (v : Value),
      ((∃ p, suGet t v = .ok p) ↔ tagOf v = t.toJType) ∧
      (tagOf v ≠ t.toJType → suGet t v = .error (.typeMismatch t.toJType (tagOf v)))) ∧
    (∀ b, suGet .dBoolean (.boolean b) = .ok b) ∧
    (∀ q, suGet .dNumber (.number q) = .ok q) ∧
    (∀ s, suGet .dString (.string s) = .ok s) ∧
    (∀ xs, suGet .dArray (.array xs) = .ok xs) ∧
    (∀ m, suGet .dObject (.object m) = .ok m) := by
  refine ⟨fun t v => ⟨?_, ?_⟩, fun b => rfl, fun q => rfl, fun s => rfl,
    fun xs => rfl, fun m => rfl⟩ <;>
    cases t <;> cases v <;> simp [suGet, tagOf, DType.toJType]

/-- Witness for C2: requesting Number from a Boolean value fails with the
mismatch error naming both variants. -/
theorem c2_witness :
    suGet .dNumber (.boolean true) = .error (.typeMismatch .number .boolean) :=
  (c2_get_iff_variant_matches.1 .dNumber (.boolean true)).2 (by decide)

/-! ## Indexing by position (claim C4) -/

/-- C4: indexing a Value by position returns the element when the active
variant is Array and the index is below the length, fails with
IndexOutOfRange when the index is not below the length, and fails with
TypeMismatch when the active variant is not Array. -/
theorem c4_index_by_position :
    (∀ (xs : List Value) (i : Nat),
      (∀ h : i < xs.length, atIndex (.array xs) i = .ok (xs.get ⟨i, h⟩)) ∧
      (xs.length ≤ i → atIndex (.array xs) i = .error (.outOfRange i xs.length))) ∧
    (∀ (v : Value) (i : Nat), tagOf v ≠ .array →
      atIndex v i = .error (.typeMismatch .array (tagOf v))) := by
  constructor
  · intro xs i
    constructor
    · intro h; simp [atIndex, h]
    · intro h; rw [atIndex]; rw [dif_neg (by omega)]
  · intro v i h
    cases v <;> simp_all [atIndex, tagOf]

/-- Witness for C4: a three-element array indexed at 3 fails with
IndexOutOfRange, at 0 succeeds, and indexing a Boolean fails with
TypeMismatch. -/
theorem c4_witness :
    atIndex (.array [.number 1, .number 2, .number 3]) 3 = .error (.outOfRange 3 3) ∧
    atIndex (.array [.null, .boolean true]) 0 = .ok .null ∧
    atIndex (.boolean true) 0 = .error (.typeMismatch .array .boolean) :=
  ⟨(c4_index_by_position.1 [.number 1, .number 2, .number 3] 3).2 (by decide),
   (c4_index_by_position.1 [.null, .boolean true] 0).1 (by decide),
   c4_index_by_position.2 (.boolean true) 0 (by decide)⟩

/-! ## Move semantics (claim C7) -/

/-- Counterexample to C7: move-constructing from a Boolean Value leaves
the source holding its Boolean payload, not in the Null state (the move
constructor only resets heap-boxed variants). -/
theorem c7_counterexample :
    (moveConstruct (.boolean true)).2 = .boolean true ∧
    (moveConstruct (.boolean true)).2 ≠ .null := by decide

/-- C7 as amended: moving always transfers the payload to the
destination; move assignment leaves the source in the Null state for
every variant, but the move constructor resets the source only for the
heap-boxed variants (String, Array, Object) and leaves inline-stored
Boolean and Number sources unchanged. -/
theorem c7_move_semantics :
    ∀ (dst v : Value),
      (moveAssign dst v).1 = v ∧ (moveAssign dst v).2 = .null ∧
      (moveConstruct v).1 = v ∧
      (usingPointer (tagOf v) = true → (moveConstruct v).2 = .null) ∧
      (usingPointer (tagOf v) = false → (moveConstruct v).2 = v) := by
  intro dst v
  refine ⟨rfl, rfl, rfl, fun h => ?_, fun h => ?_⟩ <;> simp [moveConstruct, h]

/-- Witness for C7: a moved-from String source is nulled, a moved-from
Number source keeps its payload. -/
theorem c7_witness :
    (moveConstruct (.string ['x'])).2 = .null ∧
    (moveConstruct (.number 1)).2 = .number 1 :=
  ⟨(c7_move_semantics .null (.string ['x'])).2.2.2.1 (by decide),
   (c7_move_semantics .null (.number 1)).2.2.2.2 (by decide)⟩

/-! ## Repeated object keys in the parser (claim C3) -/

/-- Counterexample to C3: parsing an object text with `"a":1` and later
`"a":2` yields Number 1 for key `a` — `std::unordered_map::insert` keeps
the first value, it does not overwrite. -/
theorem c3_counterexample :
    parse ['{', '"', 'a', '"', ':', '1', ',', '"', 'a', '"', ':', '2', '}'] =
      .ok (.object [(['a'], .number 1)]) ∧
    Value.number 1 ≠ Value.number 2 := by decide

/-- C3 as amended: on a repeated key the parser keeps the earlier value
and ignores the later pair (the insert is a no-op when the key exists),
and the object's size still counts the key once. -/
theorem c3_first_value_wins :
    parse ['{', '"', 'a', '"', ':', '1', ',', '"', 'a', '"', ':', '2', '}'] =
      .ok (.object [(['a'], .number 1)]) ∧
    jsize (.object [(['a'], .number 1)]) = .ok 1 ∧
    (∀ (m : List (List Char × Value)) (k : List Char) (v : Value),
      m.any (fun p => p.1 == k) = true → objInsert m k v = m) := by
  refine ⟨by decide, by decide, fun m k v h => ?_⟩
  simp [objInsert, h]

/-- Witness for C3 (amended): inserting `"a" := 2` into an object that
already maps `"a"` leaves the object unchanged. -/
theorem c3_witness :
    objInsert [(['a'], .number 1)] ['a'] (.number 2) = [(['a'], .number 1)] :=
  c3_first_value_wins.2.2 [(['a'], .number 1)] ['a'] (.number 2) (by decide)

/-! ## Scalar literals (claim C6) -/

/-- Counterexample to C6: `parse` applied to the input texts `null`,
`true` and `false` does not succeed — the top level accepts only `{` or
`[`, so each fails with the invalid-json error. -/
theorem c6_counterexample :
    parse "null".data = .error .invalidJson ∧
    parse "true".data = .error .invalidJson ∧
    parse "false".data = .error .invalidJson := by decide

/-- C6 as amended: the per-variant sub-parsers `parseNull` and
`parseBoolean` applied where the literal begins yield the corresponding
scalar variant with no trailing-content validation (arbitrary text may
follow the literal), and the literals parse inside a document; but a bare
scalar at the top level is rejected by `parse`. -/
theorem c6_scalar_literals :
    (∀ rest : List Char,
      parseVal 1 .pNull (['n', 'u', 'l', 'l'] ++ rest) 0 = .ok (.null, 3)) ∧
    (∀ rest : List Char,
      parseVal 1 .pBoolean (['t', 'r', 'u', 'e'] ++ rest) 0 = .ok (.boolean true, 3)) ∧
    (∀ rest : List Char,
      parseVal 1 .pBoolean (['f', 'a', 'l', 's', 'e'] ++ rest) 0 = .ok (.boolean false, 4)) ∧
    parse "[null]".data = .ok (.array [.null]) ∧
    parse "[true]".data = .ok (.array [.boolean true]) ∧
    parse "[false]".data = .ok (.array [.boolean false]) ∧
    parse "null".data = .error .invalidJson := by
  refine ⟨fun rest => ?_, fun rest => ?_, fun rest => ?_, by decide, by decide,
    by decide, by decide⟩ <;>
    simp [parseVal, matchAt, List.take_append_eq_append_take, List.length_append]

/-! ## Top-level dispatch (claims C5 and C8) -/

/-- The object loop only ever returns Object values. -/
theorem objLoop_ok_shape : ∀ (f : Nat) (txt : List Char) (i : Nat) acc v j,
    objLoop f txt i acc = .ok (v, j) → ∃ m, v = .object m := by
  intro f
  induction f with
  | zero => intro txt i acc v j h; simp [objLoop] at h
  | succ f ih =>
    intro txt i acc v j h
    rw [objLoop] at h
    split at h
    · exact ⟨acc, by injection h with h1; injection h1 with h2 _; exact h2.symm⟩
    · try dsimp only at h
      split at h
      · cases h
      · split at h
        · cases h
        · try dsimp only at h
          split at h
          · exact ih txt _ _ v j h
          · injection h with h1
            injection h1 with h2 _
            exact ⟨_, h2.symm⟩

/-- The array loop only ever returns Array values. -/
theorem arrLoop_ok_shape : ∀ (f : Nat) (k : ParserKind) (txt : List Char) (i : Nat) acc v j,
    arrLoop f k txt i acc = .ok (v, j) → ∃ xs, v = .array xs := by
  intro f
  induction f with
  | zero => intro k txt i acc v j h; simp [arrLoop] at h
  | succ f ih =>
    intro k txt i acc v j h
    rw [arrLoop] at h
    split at h
    · cases h
    · try dsimp only at h
      split at h
      · exact ih k txt _ _ v j h
      · injection h with h1
        injection h1 with h2 _
        exact ⟨_, h2.symm⟩

/-- The object sub-parser only ever returns Object values. -/
theorem parseVal_pObject_shape (F : Nat) (txt : List Char) (i j : Nat) (v : Value)
    (h : parseVal F .pObject txt i = .ok (v, j)) : ∃ m, v = .object m := by
  cases F with
  | zero => simp [parseVal] at h
  | succ f => rw [parseVal] at h; exact objLoop_ok_shape f txt i [] v j h

/-- The array sub-parser only ever returns Array values. -/
theorem parseVal_pArray_shape (F : Nat) (txt : List Char) (i j : Nat) (v : Value)
    (h : parseVal F .pArray txt i = .ok (v, j)) : ∃ xs, v = .array xs := by
  cases F with
  | zero => simp [parseVal] at h
  | succ f =>
    rw [parseVal] at h
    try dsimp only at h
    split at h
    · cases h
    · exact arrLoop_ok_shape f _ txt _ [] v j h

/-- C5: `parse` succeeds only with an Array or Object value (the dispatch
admits only `{` and `[`), and each bare top-level scalar text —
`null`, `true`, `false`, a number, a string — fails. -/
theorem c5_top_level_container :
    (∀ (txt : List Char) (v : Value), parse txt = .ok v →
      tagOf v = .array ∨ tagOf v = .object) ∧
    parse "null".data = .error .invalidJson ∧
    parse "true".data = .error .invalidJson ∧
    parse "false".data = .error .invalidJson ∧
    parse "42".data = .error .invalidJson ∧
    parse ['"', 'h', 'i', '"'] = .error .invalidJson ∧
    parse "7".data = .error .emptyString := by
  refine ⟨?_, by decide, by decide, by decide, by decide, by decide, by decide⟩
  intro txt v h
  rw [parse] at h
  split at h
  · cases h
  · split at h
    · cases hp : parseVal (txt.length + 3) .pObject txt (dispatchIndex txt) with
      | error e => rw [hp] at h; cases h
      | ok r =>
        rw [hp] at h; injection h with h1
        obtain ⟨m, hm⟩ := parseVal_pObject_shape _ txt _ r.2 r.1 (by rw [hp])
        right; rw [← h1, hm]; rfl
    · split at h
      · cases hp : parseVal (txt.length + 3) .pArray txt (dispatchIndex txt) with
        | error e => rw [hp] at h; cases h
        | ok r =>
          rw [hp] at h; injection h with h1
          obtain ⟨xs, hxs⟩ := parseVal_pArray_shape _ txt _ r.2 r.1 (by rw [hp])
          left; rw [← h1, hxs]; rfl
      · cases h

/-- Witness for C5: the successfully parsed empty-object text lands in the
container disjunction. -/
theorem c5_witness :
    tagOf (.object []) = .array ∨ tagOf (.object []) = .object :=
  c5_top_level_container.1 ['{', '}'] (.object []) (by decide)

/-- Characterization of the whitespace-skipping loop: with enough fuel it
moves forward, every position strictly passed held whitespace, and the
landing position (when inside the text) is not whitespace. -/
theorem skipSpacesF_spec (f : Nat) (txt : List Char) :
    ∀ j, txt.length ≤ j + f →
      j ≤ skipSpacesF f txt j ∧
      (∀ l, j ≤ l → l < skipSpacesF f txt j → jIsSpace (getc txt l) = true) ∧
      (skipSpacesF f txt j < txt.length →
        jIsSpace (getc txt (skipSpacesF f txt j)) = false) := by
  induction f with
  | zero =>
    intro j hf
    refine ⟨le_rfl, fun l h1 h2 => ?_, fun h => ?_⟩
    · simp [skipSpacesF] at h2; omega
    · simp [skipSpacesF] at h; omega
  | succ f ih =>
    intro j hf
    rw [skipSpacesF]
    split
    · rename_i h
      obtain ⟨ih1, ih2, ih3⟩ := ih (j + 1) (by omega)
      refine ⟨by omega, fun l h1 h2 => ?_, ih3⟩
      rcases Nat.eq_or_lt_of_le h1 with h1 | h1
      · exact h1 ▸ h.2
      · exact ih2 l (by omega) h2
    · rename_i h
      refine ⟨le_rfl, fun l h1 h2 => by omega, fun hlt => ?_⟩
      rw [Classical.not_and_iff_or_not_not] at h
      rcases h with h | h
      · omega
      · exact Bool.not_eq_true _ ▸ (by simpa using h)

/-- Counterexample to C8: a non-whitespace junk character at position 0 is
silently skipped — `x{}` parses successfully to the empty object even
though `x` is neither whitespace nor a valid leading character. -/
theorem c8_counterexample :
    parse ['x', '{', '}'] = .ok (.object []) ∧
    jIsSpace 'x' = false ∧
    getParser 'x' = .error (.invalidSymbol 'x') := by decide

/-- C8 as amended: `parse` inspects position 0 only for `{`/`[`; when
position 0 holds anything else, `skipSpaces` skips it unconditionally
(whitespace or not) and then skips whitespace from position 1 on, landing
on the first non-space character; parse succeeds only when the character
at the dispatch position is `{` or `[` — junk at positions ≥ 1 before the
value makes parse fail, but a single junk character at position 0 is
silently skipped. -/
theorem c8_leading_dispatch :
    (∀ (txt : List Char) (v : Value), parse txt = .ok v →
      getc txt (dispatchIndex txt) = '{' ∨ getc txt (dispatchIndex txt) = '[') ∧
    (∀ txt : List Char, 1 ≤ skipSpaces txt 0) ∧
    (∀ (txt : List Char) (j : Nat), 1 ≤ j → j < skipSpaces txt 0 →
      jIsSpace (getc txt j) = true) ∧
    (∀ txt : List Char, skipSpaces txt 0 < txt.length →
      jIsSpace (getc txt (skipSpaces txt 0)) = false) := by
  refine ⟨?_, fun txt => ?_, fun txt j h1 h2 => ?_, fun txt h => ?_⟩
  · intro txt v h
    rw [parse] at h
    split at h
    · cases h
    · split at h
      · left; assumption
      · split at h
        · right; assumption
        · cases h
  · exact (skipSpacesF_spec (txt.length + 1) txt 1 (by omega)).1
  · exact (skipSpacesF_spec (txt.length + 1) txt 1 (by omega)).2.1 j h1 h2
  · exact (skipSpacesF_spec (txt.length + 1) txt 1 (by omega)).2.2 h

/-- Witness for C8 (amended): the junk-led text dispatches onto its `{`. -/
theorem c8_witness :
    getc ['x', '{', '}'] (dispatchIndex ['x', '{', '}']) = '{' ∨
    getc ['x', '{', '}'] (dispatchIndex ['x', '{', '}']) = '[' :=
  c8_leading_dispatch.1 ['x', '{', '}'] (.object []) (by decide)

/-! ## Compact serialization whitespace (claim C9) -/

/-- A character sequence free of the whitespace the serializer could
insert (space, tab, newline). -/
def wsFree (s : List Char) : Bool :=
  s.all fun c => c ≠ ' ' && c ≠ '\t' && c ≠ '\n'

mutual

/-- All string payloads and object keys of the tree are whitespace-free
(so every whitespace character of the output was inserted by the
serializer, not copied from a payload). -/
def strsClean : Value → Bool
  | .null => true
  | .boolean _ => true
  | .number _ => true
  | .string s => wsFree s
  | .array xs => strsCleanL xs
  | .object m => strsCleanP m

/-- `strsClean` over array elements. -/
def strsCleanL : List Value → Bool
  | [] => true
  | x :: t => strsClean x && strsCleanL t

/-- `strsClean` over object members (keys included). -/
def strsCleanP : List (List Char × Value) → Bool
  | [] => true
  | (k, x) :: t => wsFree k && strsClean x && strsCleanP t

end

mutual

/-- The number of object members anywhere in the tree (each member is
rendered with one `": "` separator). -/
def objEntries : Value → Nat
  | .array xs => objEntriesL xs
  | .object m => m.length + objEntriesP m
  | _ => 0

/-- `objEntries` summed over array elements. -/
def objEntriesL : List Value → Nat
  | [] => 0
  | x :: t => objEntries x + objEntriesL t

/-- `objEntries` summed over object member values. -/
def objEntriesP : List (List Char × Value) → Nat
  | [] => 0
  | (_, x) :: t => objEntries x + objEntriesP t

end

/-- Every character `natDigitsF` emits beyond its accumulator satisfies
any property of the decimal digit characters. -/
theorem natDigitsF_chars (P : Char → Prop) (hP : ∀ d, d < 10 → P (Nat.digitChar d)) :
    ∀ (f n : Nat) (acc : List Char), (∀ c ∈ acc, P c) → ∀ c ∈ natDigitsF f n acc, P c := by
  intro f
  induction f with
  | zero => intro n acc hacc c hc; exact hacc c hc
  | succ f ih =>
    intro n acc hacc c hc
    rw [natDigitsF] at hc
    split at hc
    · exact hacc c hc
    · refine ih (n / 10) _ ?_ c hc
      intro d hd
      rcases List.mem_cons.1 hd with hd | hd
      · rw [hd]; exact hP (n % 10) (Nat.mod_lt n (by omega))
      · exact hacc d hd

/-- Every character of `renderNum` is a minus sign, a decimal point or a
digit — in particular never whitespace. -/
theorem renderNum_chars (q : ℚ) :
    ∀ c ∈ renderNum q, c = '-' ∨ c = '.' ∨ c.isDigit = true := by
  have hdig : ∀ d, d < 10 → (Nat.digitChar d = '-' ∨ Nat.digitChar d = '.' ∨
      (Nat.digitChar d).isDigit = true) := by decide
  have hnat : ∀ n, ∀ c ∈ natDigits n, c = '-' ∨ c = '.' ∨ c.isDigit = true := by
    intro n c hc
    rw [natDigits] at hc
    split at hc
    · rcases List.mem_cons.1 hc with hc | hc
      · right; right; rw [hc]; rfl
      · cases hc
    · exact natDigitsF_chars (fun c => c = '-' ∨ c = '.' ∨ c.isDigit = true) hdig _ n []
        (by intro c hc; cases hc) c hc
  intro c hc
  rw [renderNum] at hc
  simp only [List.mem_append, List.mem_cons] at hc
  rcases hc with (hc | hc) | hc | hc
  · split at hc
    · rcases List.mem_cons.1 hc with hc | hc
      · left; exact hc
      · cases hc
    · cases hc
  · exact hnat _ c hc
  · right; left; exact hc
  · rw [pad6] at hc
    rcases List.mem_append.1 hc with hc | hc
    · right; right; rw [List.eq_of_mem_replicate hc]; rfl
    · exact hnat _ c hc

/-- A whitespace character never occurs in `renderNum`'s output. -/
theorem renderNum_count_ws (q : ℚ) (c : Char)
    (hc : c = ' ' ∨ c = '\t' ∨ c = '\n') : (renderNum q).count c = 0 := by
  rw [List.count_eq_zero]
  intro hmem
  rcases renderNum_chars q c hmem with h | h | h <;> rcases hc with hc | hc | hc <;>
    subst hc <;> simp_all

/-- A whitespace character never occurs in a `wsFree` sequence. -/
theorem wsFree_count (s : List Char) (hs : wsFree s = true) (c : Char)
    (hc : c = ' ' ∨ c = '\t' ∨ c = '\n') : s.count c = 0 := by
  rw [List.count_eq_zero]
  intro hmem
  rw [wsFree, List.all_eq_true] at hs
  have := hs c hmem
  rcases hc with hc | hc | hc <;> subst hc <;> simp_all

/-- Counterexample to C9: compact serialization of `{"a": null}` contains
a space character — the serializer emits `": "` after every object key
even in compact mode. -/
theorem c9_counterexample :
    toStr (.object [(['a'], .null)]) (-1) =
      ['{', '"', 'a', '"', ':', ' ', 'n', 'u', 'l', 'l', '}'] ∧
    ' ' ∈ toStr (.object [(['a'], .null)]) (-1) := by decide

/-- C9 as amended: for `indent < 0` the serializer inserts no line breaks
and no indentation, and the only whitespace it inserts is the single
space after each object key's colon: on a tree whose strings and keys are
whitespace-free the output contains no newline, no tab, and exactly one
space per object member. -/
theorem c9_compact_whitespace :
    ∀ (v : Value) (ind : Int), ind < 0 → strsClean v = true →
      (toStr v ind).count '\n' = 0 ∧
      (toStr v ind).count '\t' = 0 ∧
      (toStr v ind).count ' ' = objEntries v := by
  have key : ∀ (n : Nat) (v : Value), sizeOf v ≤ n → ∀ ind : Int, ind < 0 →
      strsClean v = true →
      (toStr v ind).count '\n' = 0 ∧ (toStr v ind).count '\t' = 0 ∧
      (toStr v ind).count ' ' = objEntries v := by
    intro n
    induction n with
    | zero => intro v h; cases v <;> simp at h
    | succ n ih =>
      have hseq : ∀ (xs : List Value), sizeOf xs ≤ n → strsCleanL xs = true →
          ∀ ind : Int, ind < 0 →
          (serSeq xs ind [] []).count '\n' = 0 ∧
          (serSeq xs ind [] []).count '\t' = 0 ∧
          (serSeq xs ind [] []).count ' ' = objEntriesL xs := by
        intro xs
        induction xs with
        | nil => intro _ _ ind hind; refine ⟨rfl, rfl, rfl⟩
        | cons x t iht =>
          intro hsz hcl ind hind
          have hx : sizeOf x ≤ n := by have := List.cons.sizeOf_spec x t; omega
          have ht : sizeOf t ≤ n := by have := List.cons.sizeOf_spec x t; omega
          rw [strsCleanL, Bool.and_eq_true] at hcl
          obtain ⟨hv1, hv2, hv3⟩ := ih x hx ind hind hcl.1
          cases t with
          | nil =>
            rw [show serSeq [x] ind [] [] = [] ++ toStr x ind ++ [] from rfl]
            simp only [List.nil_append, List.append_nil, objEntriesL, objEntriesL.eq_1]
            exact ⟨hv1, hv2, by rw [hv3]; omega⟩
          | cons y t' =>
            obtain ⟨hr1, hr2, hr3⟩ := iht ht hcl.2 ind hind
            rw [show serSeq (x :: y :: t') ind [] [] =
              [] ++ toStr x ind ++ ',' :: [] ++ serSeq (y :: t') ind [] [] from rfl]
            simp only [List.nil_append, List.cons_append, List.count_append,
              List.count_cons, objEntriesL]
            refine ⟨?_, ?_, ?_⟩ <;>
              simp [hv1, hv2, hv3, hr1, hr2, hr3, objEntriesL]
      have hpairs : ∀ (m : List (List Char × Value)), sizeOf m ≤ n →
          strsCleanP m = true → ∀ ind : Int, ind < 0 →
          (serPairs m ind [] []).count '\n' = 0 ∧
          (serPairs m ind [] []).count '\t' = 0 ∧
          (serPairs m ind [] []).count ' ' = m.length + objEntriesP m := by
        intro m
        induction m with
        | nil => intro _ _ ind hind; refine ⟨rfl, rfl, rfl⟩
        | cons p t iht =>
          intro hsz hcl ind hind
          obtain ⟨k, x⟩ := p
          have hx : sizeOf x ≤ n := by
            have h1 := List.cons.sizeOf_spec (k, x) t
            have h2 : sizeOf (k, x) = 1 + sizeOf k + sizeOf x := rfl
            omega
          have ht : sizeOf t ≤ n := by have := List.cons.sizeOf_spec (k, x) t; omega
          rw [strsCleanP, Bool.and_eq_true, Bool.and_eq_true] at hcl
          obtain ⟨⟨hk, hvc⟩, htc⟩ := hcl
          obtain ⟨hv1, hv2, hv3⟩ := ih x hx ind hind hvc
          have hk1 := wsFree_count k hk '\n' (by tauto)
          have hk2 := wsFree_count k hk '\t' (by tauto)
          have hk3 := wsFree_count k hk ' ' (by tauto)
          cases t with
          | nil =>
            rw [show serPairs [(k, x)] ind [] [] =
              [] ++ '"' :: k ++ '"' :: ':' :: ' ' :: toStr x ind ++ [] from rfl]
            simp only [List.nil_append, List.append_nil, List.cons_append,
              List.count_append, List.count_cons, objEntriesP, List.length_cons,
              List.length_nil]
            refine ⟨?_, ?_, ?_⟩ <;>
              simp [hv1, hv2, hv3, hk1, hk2, hk3, objEntriesP] <;> omega
          | cons p' t' =>
            obtain ⟨hr1, hr2, hr3⟩ := iht ht htc ind hind
            rw [show serPairs ((k, x) :: p' :: t') ind [] [] =
              [] ++ '"' :: k ++ '"' :: ':' :: ' ' :: toStr x ind ++ ',' :: [] ++
                serPairs (p' :: t') ind [] [] from rfl]
            simp only [List.nil_append, List.cons_append, List.count_append,
              List.count_cons, objEntriesP, List.length_cons]
            refine ⟨?_, ?_, ?_⟩ <;>
              simp [hv1, hv2, hv3, hk1, hk2, hk3, hr1, hr2, hr3, objEntriesP] <;> omega
      intro v hsz ind hind hclean
      cases v with
      | null =>
        rw [show toStr .null ind = ['n', 'u', 'l', 'l'] from rfl]
        exact ⟨by decide, by decide, by decide⟩
      | boolean b =>
        cases b
        · rw [show toStr (.boolean false) ind = ['f', 'a', 'l', 's', 'e'] from rfl]
          exact ⟨by decide, by decide, by decide⟩
        · rw [show toStr (.boolean true) ind = ['t', 'r', 'u', 'e'] from rfl]
          exact ⟨by decide, by decide, by decide⟩
      | number q =>
        rw [show toStr (.number q) ind = renderNum q from rfl]
        exact ⟨renderNum_count_ws q _ (by tauto), renderNum_count_ws q _ (by tauto),
          by rw [renderNum_count_ws q _ (by tauto)]; rfl⟩
      | string s =>
        rw [show toStr (.string s) ind = '"' :: s ++ ['"'] from rfl]
        rw [strsClean] at hclean
        have h1 := wsFree_count s hclean '\n' (by tauto)
        have h2 := wsFree_count s hclean '\t' (by tauto)
        have h3 := wsFree_count s hclean ' ' (by tauto)
        refine ⟨?_, ?_, ?_⟩ <;>
          simp [List.count_cons, List.count_append, h1, h2, h3, objEntries]
      | array xs =>
        have hxs : sizeOf xs ≤ n := by have := Value.array.sizeOf_spec xs; omega
        rw [strsClean] at hclean
        obtain ⟨h1, h2, h3⟩ := hseq xs hxs hclean ind hind
        rw [show toStr (.array xs) ind =
          (if ind < 0 then ('[' : Char) :: [] ++ serSeq xs ind [] [] ++ [] ++ [']']
           else '[' :: ['\n'] ++
             serSeq xs (ind + 1) (List.replicate (ind + 1).toNat '\t') ['\n'] ++
             List.replicate ind.toNat '\t' ++ [']']) from by
          rw [toStr]; split <;> rename_i hc <;> simp [hc]]
        rw [if_pos hind]
        simp only [List.nil_append, List.append_nil, List.count_cons,
          List.count_append, objEntries]
        refine ⟨?_, ?_, ?_⟩ <;> simp [h1, h2, h3]
      | object m =>
        have hm : sizeOf m ≤ n := by have := Value.object.sizeOf_spec m; omega
        rw [strsClean] at hclean
        obtain ⟨h1, h2, h3⟩ := hpairs m hm hclean ind hind
        rw [show toStr (.object m) ind =
          (if ind < 0 then ('{' : Char) :: [] ++ serPairs m ind [] [] ++ [] ++ ['}']
           else '{' :: ['\n'] ++
             serPairs m (ind + 1) (List.replicate (ind + 1).toNat '\t') ['\n'] ++
             List.replicate ind.toNat '\t' ++ ['}']) from by
          rw [toStr]; split <;> rename_i hc <;> simp [hc]]
        rw [if_pos hind]
        simp only [List.nil_append, List.append_nil, List.count_cons,
          List.count_append, objEntries]
        refine ⟨?_, ?_, ?_⟩ <;> simp [h1, h2, h3]
  exact fun v ind hind hclean => key (sizeOf v) v le_rfl ind hind hclean

/-! ## Round-trip machinery (claims C1 and C10)

The generalized statement walks the text by positions: a hypothesis
`txt.drop i = A ++ rest` pins the characters from position `i` on, and
each sub-parser lemma consumes its serialized form `A` exactly. -/

theorem getc_of_drop {txt : List Char} {i : Nat} {c : Char} {t : List Char}
    (h : txt.drop i = c :: t) : getc txt i = c := by
  rw [getc, h]; rfl

theorem lt_length_of_drop {txt : List Char} {i : Nat} {c : Char} {t : List Char}
    (h : txt.drop i = c :: t) : i < txt.length := by
  by_contra hc
  rw [List.drop_eq_nil_of_le (by omega)] at h
  cases h

theorem drop_append_of_drop {txt A rest : List Char} {i : Nat}
    (h : txt.drop i = A ++ rest) : txt.drop (i + A.length) = rest := by
  have h2 : List.drop A.length (List.drop i txt) = rest := by rw [h, List.drop_left]
  rw [List.drop_drop] at h2
  exact h2

theorem drop_succ_of_drop {txt : List Char} {i : Nat} {c : Char} {t : List Char}
    (h : txt.drop i = c :: t) : txt.drop (i + 1) = t :=
  drop_append_of_drop (A := [c]) h

theorem length_of_drop {txt A : List Char} {i : Nat}
    (h : txt.drop i = A) : txt.length - i = A.length := by
  rw [← List.length_drop, h]

/-- `getc` at or past the end of the text is the terminating `'\0'`. -/
theorem getc_oob {txt : List Char} {i : Nat} (h : txt.length ≤ i) :
    getc txt i = '\x00' := by
  rw [getc, List.drop_eq_nil_of_le h]; rfl

/-- The skipping loop does not move off a non-space character. -/
theorem skipSpacesF_stop (f : Nat) (txt : List Char) (j : Nat)
    (h : jIsSpace (getc txt j) = false) : skipSpacesF f txt j = j := by
  cases f with
  | zero => rfl
  | succ f => rw [skipSpacesF, if_neg (by simp [h])]

/-- `skipSpaces` lands on position `i + 1` when that position is not
whitespace (also when it is past the end). -/
theorem skipSpaces_one {txt : List Char} {i : Nat}
    (h : jIsSpace (getc txt (i + 1)) = false) : skipSpaces txt i = i + 1 := by
  rw [skipSpaces]; exact skipSpacesF_stop _ txt (i + 1) h

/-- `skipSpaces` lands on position `i + 2` when position `i + 1` holds
whitespace inside the text and position `i + 2` does not. -/
theorem skipSpaces_two {txt : List Char} {i : Nat}
    (h1 : jIsSpace (getc txt (i + 1)) = true) (hlt : i + 1 < txt.length)
    (h2 : jIsSpace (getc txt (i + 2)) = false) : skipSpaces txt i = i + 2 := by
  rw [skipSpaces, skipSpacesF, if_pos ⟨hlt, h1⟩]
  exact skipSpacesF_stop _ txt (i + 2) h2

/-- A pattern occurring verbatim at position `i` makes `matchAt` true. -/
theorem matchAt_of_drop {txt pat rest : List Char} {i : Nat}
    (h : txt.drop i = pat ++ rest) : matchAt txt i pat = true := by
  rw [matchAt, h, List.take_left]
  exact beq_self_eq_true pat

/-- `parseNull` on a text holding `null` at the current position. -/
theorem parseNull_ok {f : Nat} {txt rest : List Char} {i : Nat}
    (h : txt.drop i = 'n' :: 'u' :: 'l' :: 'l' :: rest) :
    parseVal (f + 1) .pNull txt i = .ok (.null, i + 3) := by
  have hlen := length_of_drop h
  rw [parseVal, if_pos]
  refine ⟨by simp at hlen; omega, @matchAt_of_drop txt ['n', 'u', 'l', 'l'] rest i h⟩

/-- `parseBoolean` on a text holding `true` at the current position. -/
theorem parseBoolean_true_ok {f : Nat} {txt rest : List Char} {i : Nat}
    (h : txt.drop i = 't' :: 'r' :: 'u' :: 'e' :: rest) :
    parseVal (f + 1) .pBoolean txt i = .ok (.boolean true, i + 3) := by
  have hlen := length_of_drop h
  have hfalse : matchAt txt i ['f', 'a', 'l', 's', 'e'] = false := by
    rw [matchAt, h]
    rw [beq_eq_false_iff_ne]
    intro hcontra
    simp [List.take] at hcontra
  rw [parseVal, if_pos (by simp at hlen; omega)]
  rw [show ("false".data : List Char) = ['f', 'a', 'l', 's', 'e'] from rfl, hfalse]
  rw [show ("true".data : List Char) = ['t', 'r', 'u', 'e'] from rfl,
    @matchAt_of_drop txt ['t', 'r', 'u', 'e'] rest i h]
  rfl

/-- `parseBoolean` on a text holding `false` at the current position. -/
theorem parseBoolean_false_ok {f : Nat} {txt rest : List Char} {i : Nat}
    (h : txt.drop i = 'f' :: 'a' :: 'l' :: 's' :: 'e' :: rest) :
    parseVal (f + 1) .pBoolean txt i = .ok (.boolean false, i + 4) := by
  have hlen := length_of_drop h
  rw [parseVal, if_pos (by simp at hlen; omega)]
  rw [show ("false".data : List Char) = ['f', 'a', 'l', 's', 'e'] from rfl,
    @matchAt_of_drop txt ['f', 'a', 'l', 's', 'e'] rest i h]
  rfl

/-- The string-collecting loop consumes a quote-free span up to the
closing quote, provided at least one character follows it. -/
theorem parseStrLoopF_ok :
    ∀ (s : List Char) (f : Nat) (txt : List Char) (j : Nat) (acc : List Char)
      (c : Char) (rest : List Char),
      txt.drop j = s ++ '"' :: c :: rest →
      (∀ ch ∈ s, ch ≠ '"') →
      s.length + 1 ≤ f →
      parseStrLoopF f txt j acc = .ok (acc ++ s, j + s.length) := by
  intro s
  induction s with
  | nil =>
    intro f txt j acc c rest h _ hf
    cases f with
    | zero => omega
    | succ f =>
      rw [parseStrLoopF]
      rw [show getc txt j = '"' from getc_of_drop h, if_pos rfl]
      simp
  | cons x s ihs =>
    intro f txt j acc c rest h hq hf
    cases f with
    | zero => simp at hf
    | succ f =>
      have hlen := length_of_drop h
      have hx : getc txt j = x := getc_of_drop h
      rw [parseStrLoopF]
      rw [hx, if_neg (hq x (by simp))]
      rw [if_neg (by simp at hlen; omega)]
      have := ihs f txt (j + 1) (acc ++ [x]) c rest (drop_succ_of_drop h)
        (fun ch hch => hq ch (by simp [hch])) (by simp at hf ⊢; omega)
      rw [this]
      simp [List.append_assoc]
      omega

/-- `parseString` on a serialized string (a quote-free payload between
quotes, with at least one character following the closing quote). -/
theorem parseString_ok {f : Nat} {txt s rest : List Char} {i : Nat} {c : Char}
    (h : txt.drop i = '"' :: s ++ '"' :: c :: rest)
    (hq : ∀ ch ∈ s, ch ≠ '"') :
    parseVal (f + 1) .pString txt i = .ok (.string s, i + 1 + s.length) := by
  have hlen := length_of_drop h
  rw [parseVal]
  rw [parseStrLoopF_ok s (txt.length + 1) txt (i + 1) [] c rest
    (drop_succ_of_drop h) hq (by simp at hlen; omega)]
  simp

/-- The key-collecting loop consumes a quote-free key up to its closing
quote. -/
theorem scanKeyF_ok :
    ∀ (k : List Char) (f : Nat) (txt : List Char) (j : Nat) (acc rest : List Char),
      txt.drop j = k ++ '"' :: rest →
      (∀ ch ∈ k, ch ≠ '"') →
      k.length + 1 ≤ f →
      scanKeyF f txt j acc = (acc ++ k, j + k.length) := by
  intro k
  induction k with
  | nil =>
    intro f txt j acc rest h _ hf
    cases f with
    | zero => omega
    | succ f =>
      rw [scanKeyF, if_neg]
      · simp
      · rw [show getc txt j = '"' from getc_of_drop h]
        simp
  | cons x k ihk =>
    intro f txt j acc rest h hq hf
    cases f with
    | zero => simp at hf
    | succ f =>
      have hx : getc txt j = x := getc_of_drop h
      rw [scanKeyF, if_pos ⟨lt_length_of_drop h, by rw [hx]; exact hq x (by simp)⟩]
      rw [hx]
      rw [ihk f txt (j + 1) (acc ++ [x]) rest (drop_succ_of_drop h)
        (fun ch hch => hq ch (by simp [hch])) (by simp at hf ⊢; omega)]
      simp [List.append_assoc]
      omega

theorem digitsVal_shift :
    ∀ (l : List Char) (a : Nat),
      l.foldl (fun x c => 10 * x + (c.toNat - 48)) a = a * 10 ^ l.length + digitsVal l := by
  intro l
  induction l with
  | nil => intro a; simp [digitsVal]
  | cons c t ih =>
    intro a
    rw [digitsVal, List.foldl_cons, List.foldl_cons, ih, ih (10 * 0 + (c.toNat - 48))]
    simp [List.length_cons, pow_succ]
    ring

theorem digitsVal_cons (c : Char) (l : List Char) :
    digitsVal (c :: l) = (c.toNat - 48) * 10 ^ l.length + digitsVal l := by
  rw [digitsVal, List.foldl_cons, digitsVal_shift]
  norm_num

theorem digitsVal_append (l1 l2 : List Char) :
    digitsVal (l1 ++ l2) = digitsVal l1 * 10 ^ l2.length + digitsVal l2 := by
  rw [digitsVal, List.foldl_append, digitsVal_shift]
  rfl

theorem digitsVal_replicate_zero (z : Nat) :
    digitsVal (List.replicate z '0') = 0 := by
  induction z with
  | zero => rfl
  | succ z ih =>
    rw [List.replicate_succ, digitsVal_cons, ih]
    rw [show ('0'.toNat - 48) = 0 from rfl]
    simp

theorem digitsVal_natDigitsF :
    ∀ (f n : Nat) (acc : List Char), n < 10 ^ f →
      digitsVal (natDigitsF f n acc) = n * 10 ^ acc.length + digitsVal acc := by
  intro f
  induction f with
  | zero => intro n acc h; interval_cases n; simp [natDigitsF]
  | succ f ih =>
    intro n acc h
    rw [natDigitsF]
    split
    · simp [*]
    · rw [ih (n / 10) _ (by rw [Nat.div_lt_iff_lt_mul (by omega)]; rw [pow_succ] at h; omega)]
      rw [digitsVal_cons]
      have hd : (Nat.digitChar (n % 10)).toNat - 48 = n % 10 := by
        have h10 : n % 10 < 10 := Nat.mod_lt n (by omega)
        revert h10
        generalize n % 10 = d
        revert d
        decide
      rw [hd, List.length_cons, pow_succ]
      conv_rhs => rw [show n = 10 * (n / 10) + n % 10 from (Nat.div_add_mod n 10).symm]
      ring

theorem digitsVal_natDigits (n : Nat) : digitsVal (natDigits n) = n := by
  rw [natDigits]
  split
  · simp [digitsVal, *]
  · rw [digitsVal_natDigitsF (n + 1) n []
      (lt_of_lt_of_le (Nat.lt_pow_self (by omega) n) (Nat.pow_le_pow_right (by omega) (by omega)))]
    simp [digitsVal]

theorem natDigitsF_length_le :
    ∀ (f n k : Nat) (acc : List Char), n < 10 ^ k →
      (natDigitsF f n acc).length ≤ k + acc.length := by
  intro f
  induction f with
  | zero => intro n k acc _; simp [natDigitsF]
  | succ f ih =>
    intro n k acc h
    rw [natDigitsF]
    split
    · omega
    · have hk : 1 ≤ k := by
        by_contra hc
        interval_cases k
        simp at h
        omega
      have := ih (n / 10) (k - 1) (Nat.digitChar (n % 10) :: acc)
        (by
          rw [Nat.div_lt_iff_lt_mul (by omega)]
          calc n < 10 ^ k := h
          _ = 10 ^ (k - 1) * 10 := by rw [← pow_succ]; congr 1; omega)
      simp at this ⊢
      omega

theorem natDigits_length_le (n k : Nat) (h : n < 10 ^ k) (hk : 1 ≤ k) :
    (natDigits n).length ≤ k := by
  rw [natDigits]
  split
  · simpa using hk
  · simpa using natDigitsF_length_le (n + 1) n k [] h

theorem natDigits_ne_nil (n : Nat) : natDigits n ≠ [] := by
  rw [natDigits]
  split
  · simp
  · rename_i h
    cases hf : natDigitsF (n + 1) n [] with
    | nil =>
      have := digitsVal_natDigitsF (n + 1) n []
        (lt_of_lt_of_le (Nat.lt_pow_self (by omega) n) (Nat.pow_le_pow_right (by omega) (by omega)))
      rw [hf] at this
      simp [digitsVal] at this
      omega
    | cons c t => simp

theorem natDigits_mem_digitChar (n : Nat) :
    ∀ c ∈ natDigits n, ∃ d, d < 10 ∧ c = Nat.digitChar d := by
  intro c hc
  rw [natDigits] at hc
  split at hc
  · rcases List.mem_cons.1 hc with hc | hc
    · exact ⟨0, by omega, by rw [hc]; rfl⟩
    · cases hc
  · exact natDigitsF_chars (fun c => ∃ d, d < 10 ∧ c = Nat.digitChar d)
      (fun d hd => ⟨d, hd, rfl⟩) _ n [] (by intro c hc; cases hc) c hc

theorem natDigits_isDigit (n : Nat) : ∀ c ∈ natDigits n, c.isDigit = true := by
  have hall : ∀ d, d < 10 → (Nat.digitChar d).isDigit = true := by decide
  intro c hc
  obtain ⟨d, hd, rfl⟩ := natDigits_mem_digitChar n c hc
  exact hall d hd

theorem pad6_length (m : Nat) (h : m < 1000000) : (pad6 m).length = 6 := by
  have := natDigits_length_le m 6 (by norm_num; omega) (by omega)
  rw [pad6, List.length_append, List.length_replicate]
  omega

theorem digitsVal_pad6 (m : Nat) : digitsVal (pad6 m) = m := by
  rw [pad6, digitsVal_append, digitsVal_replicate_zero, digitsVal_natDigits]
  ring

theorem pad6_isDigit (m : Nat) : ∀ c ∈ pad6 m, c.isDigit = true := by
  intro c hc
  rw [pad6] at hc
  rcases List.mem_append.1 hc with hc | hc
  · rw [List.eq_of_mem_replicate hc]; rfl
  · exact natDigits_isDigit m c hc

theorem takeWhile_append_cons (p : Char → Bool) (A : List Char) (x : Char) (B : List Char)
    (hA : ∀ a ∈ A, p a = true) (hx : p x = false) :
    (A ++ x :: B).takeWhile p = A := by
  induction A with
  | nil => simp [List.takeWhile_cons, hx]
  | cons a t ih =>
    rw [List.cons_append, List.takeWhile_cons, if_pos (hA a (by simp))]
    rw [ih (fun a ha => hA a (by simp [ha]))]

/-- A decimal digit character is not whitespace and is none of the
characters the number scanner or the parser dispatch treats specially. -/
theorem isDigit_facts (a : Char) (h : a.isDigit = true) :
    jIsSpace a = false ∧ a ≠ '-' ∧ a ≠ '+' ∧ a ≠ '.' ∧ a ≠ 'e' ∧ a ≠ 'E' ∧
      a ≠ '{' ∧ a ≠ '[' ∧ a ≠ '"' ∧ a ≠ 't' ∧ a ≠ 'f' ∧ a ≠ 'n' := by
  have hrange : '0' ≤ a ∧ a ≤ '9' := by
    rw [show a.isDigit = ('0' ≤ a && a ≤ '9') from rfl] at h
    simpa using h
  have hlo : 48 ≤ a.toNat := hrange.1
  have hhi : a.toNat ≤ 57 := hrange.2
  have hne : ∀ c : Char, c.toNat < 48 ∨ 57 < c.toNat → a ≠ c := by
    intro c hc heq
    subst heq
    omega
  refine ⟨?_, hne '-' (by left; decide), hne '+' (by left; decide),
    hne '.' (by left; decide), hne 'e' (by right; decide), hne 'E' (by right; decide),
    hne '{' (by right; decide), hne '[' (by right; decide), hne '"' (by left; decide),
    hne 't' (by right; decide), hne 'f' (by right; decide), hne 'n' (by right; decide)⟩
  rw [jIsSpace]
  have hsp : a ≠ ' ' := hne ' ' (by left; decide)
  have h1 : a ≠ '\t' := hne '\t' (by left; decide)
  have h2 : a ≠ '\n' := hne '\n' (by left; decide)
  have h3 : a ≠ '\x0b' := hne '\x0b' (by left; decide)
  have h4 : a ≠ '\x0c' := hne '\x0c' (by left; decide)
  have h5 : a ≠ '\r' := hne '\r' (by left; decide)
  simp [hsp, h1, h2, h3, h4, h5]

/-- The lookahead dispatch sends every digit character to the number
parser. -/
theorem getParser_digit (a : Char) (h : a.isDigit = true) :
    getParser a = .ok .pNumber := by
  obtain ⟨_, _, _, _, _, _, h7, h8, h9, h10, h11, _⟩ := isDigit_facts a h
  have hrange : '0' ≤ a ∧ a ≤ '9' := by
    rw [show a.isDigit = ('0' ≤ a && a ≤ '9') from rfl] at h
    simpa using h
  rw [getParser, if_neg h7, if_neg h8, if_neg h9, if_neg (by tauto), if_pos hrange]

set_option maxHeartbeats 1000000 in
/-- Scanning a text of the shape `digits ++ '.' ++ digits ++ c ++ rest`
(with `c` neither a digit nor a dot nor an exponent marker) consumes
exactly the decimal literal and yields its exact rational value. -/
theorem scanNum_digits_frac (A B : List Char) (c : Char) (rest : List Char)
    (hA : ∀ a ∈ A, a.isDigit = true) (hAne : A ≠ [])
    (hB : ∀ b ∈ B, b.isDigit = true)
    (hcd : c.isDigit = false) (hcdot : c ≠ '.') (hce : c ≠ 'e') (hcE : c ≠ 'E') :
    scanNum (A ++ '.' :: B ++ c :: rest) =
      some (mkRat (digitsVal A * 10 ^ B.length + digitsVal B) (10 ^ B.length),
        A.length + 1 + B.length) := by
  obtain ⟨a, A', rfl⟩ := List.exists_cons_of_ne_nil hAne
  have ha := hA a (by simp)
  obtain ⟨hasp, ham, hap, _, _, _, _, _, _, _, _, _⟩ := isDigit_facts a ha
  have hlist : a :: A' ++ '.' :: B ++ c :: rest = a :: (A' ++ '.' :: (B ++ c :: rest)) := by
    simp
  have h1 : List.takeWhile jIsSpace (a :: (A' ++ '.' :: (B ++ c :: rest))) = [] := by
    rw [List.takeWhile_cons, if_neg (by rw [hasp]; simp)]
  have h2 : List.takeWhile Char.isDigit (a :: (A' ++ '.' :: (B ++ c :: rest))) = a :: A' := by
    have := takeWhile_append_cons Char.isDigit (a :: A') '.' (B ++ c :: rest) hA (by decide)
    simpa using this
  have h3 : List.drop (a :: A').length (a :: (A' ++ '.' :: (B ++ c :: rest))) =
      '.' :: (B ++ c :: rest) := by
    have := List.drop_left (a :: A') ('.' :: (B ++ c :: rest))
    simpa using this
  have h4 : List.takeWhile Char.isDigit (B ++ c :: rest) = B :=
    takeWhile_append_cons Char.isDigit B c rest hB hcd
  have h5 : List.drop (1 + B.length) ('.' :: (B ++ c :: rest)) = c :: rest := by
    rw [show 1 + B.length = B.length + 1 from by omega]
    rw [List.drop_succ_cons]
    exact List.drop_left B (c :: rest)
  rw [hlist, scanNum]
  rw [h1]
  rw [show ([] : List Char).length = 0 from rfl]
  rw [show List.drop 0 (a :: (A' ++ '.' :: (B ++ c :: rest))) =
    a :: (A' ++ '.' :: (B ++ c :: rest)) from rfl]
  rw [show List.headD (a :: (A' ++ '.' :: (B ++ c :: rest))) '\x00' = a from rfl]
  rw [if_neg ham, if_neg hap]
  dsimp only
  simp only [List.drop_zero]
  rw [h2, h3]
  simp only [List.headD_cons, List.tail_cons]
  simp only [if_true]
  rw [h4]
  rw [h5]
  simp only [List.headD_cons]
  rw [if_neg (show ¬(c = 'e' ∨ c = 'E') from by tauto)]
  norm_num
  push_cast
  ring_nf

/-- When the denominator divides 10⁶ the half-up rounding of `|q| · 10⁶`
is exact. -/
theorem rnScaled_eq (q : ℚ) (hdvd : q.den ∣ 1000000) :
    rnScaled q = q.num.natAbs * (1000000 / q.den) := by
  obtain ⟨t, ht⟩ := hdvd
  have hb : 0 < q.den := q.den_pos
  have htt : 1000000 / q.den = t := by rw [ht]; exact Nat.mul_div_cancel_left t hb
  rw [rnScaled, htt, ht]
  rw [show 2 * (q.num.natAbs * (q.den * t)) + q.den =
    q.den * (2 * (q.num.natAbs * t) + 1) from by ring]
  rw [show 2 * q.den = q.den * 2 from by ring]
  rw [Nat.mul_div_mul_left _ _ hb]
  omega

/-- Reassembling the scaled integer over the fixed denominator 10⁶
recovers the rational exactly. -/
theorem mkRat_scaled (q : ℚ) (hq0 : 0 ≤ q.num) (hdvd : q.den ∣ 1000000) :
    mkRat ((q.num.natAbs * (1000000 / q.den) : ℕ) : ℤ) 1000000 = q := by
  obtain ⟨t, ht⟩ := hdvd
  have hb : 0 < q.den := q.den_pos
  have htpos : 0 < t := by
    rcases Nat.eq_zero_or_pos t with h | h
    · rw [h] at ht; omega
    · exact h
  have htt : 1000000 / q.den = t := by rw [ht]; exact Nat.mul_div_cancel_left t hb
  rw [htt, Rat.mkRat_eq_div]
  push_cast
  rw [abs_of_nonneg (show (0 : ℚ) ≤ (q.num : ℚ) from by exact_mod_cast hq0)]
  rw [show ((1000000 : ℚ)) = (q.den : ℚ) * (t : ℚ) from by exact_mod_cast ht]
  rw [mul_div_mul_right _ _ (show ((t : ℚ)) ≠ 0 from by positivity)]
  exact Rat.num_div_den q

/-- `std::stod` consumes the whole `%f` rendering of a nonnegative
six-decimal rational (followed by a separator) and recovers it exactly. -/
theorem scanNum_renderNum (q : ℚ) (hq0 : 0 ≤ q.num) (hdvd : q.den ∣ 1000000)
    (c : Char) (rest : List Char) (hc : c = ',' ∨ c = ']' ∨ c = '}') :
    scanNum (renderNum q ++ c :: rest) = some (q, (renderNum q).length) := by
  have hneg : ¬ q.num < 0 := by omega
  have hrw : renderNum q =
      natDigits (rnScaled q / 1000000) ++ '.' :: pad6 (rnScaled q % 1000000) := by
    rw [renderNum, if_neg hneg]
    simp
  have hcd : c.isDigit = false := by rcases hc with rfl | rfl | rfl <;> decide
  have hcdot : c ≠ '.' := by rcases hc with rfl | rfl | rfl <;> decide
  have hce : c ≠ 'e' := by rcases hc with rfl | rfl | rfl <;> decide
  have hcE : c ≠ 'E' := by rcases hc with rfl | rfl | rfl <;> decide
  have hmod : rnScaled q % 1000000 < 1000000 := Nat.mod_lt _ (by omega)
  rw [hrw]
  rw [show natDigits (rnScaled q / 1000000) ++ '.' :: pad6 (rnScaled q % 1000000) ++
      c :: rest =
    natDigits (rnScaled q / 1000000) ++ '.' :: pad6 (rnScaled q % 1000000) ++
      c :: rest from rfl]
  rw [scanNum_digits_frac (natDigits (rnScaled q / 1000000)) (pad6 (rnScaled q % 1000000))
    c rest (natDigits_isDigit _) (natDigits_ne_nil _) (pad6_isDigit _) hcd hcdot hce hcE]
  have hval : digitsVal (natDigits (rnScaled q / 1000000)) *
        10 ^ (pad6 (rnScaled q % 1000000)).length +
        digitsVal (pad6 (rnScaled q % 1000000)) = rnScaled q := by
    rw [digitsVal_natDigits, digitsVal_pad6, pad6_length _ hmod]
    have := Nat.div_add_mod (rnScaled q) 1000000
    norm_num
    omega
  have hcast : ((digitsVal (natDigits (rnScaled q / 1000000)) : ℤ) *
        10 ^ (pad6 (rnScaled q % 1000000)).length +
        (digitsVal (pad6 (rnScaled q % 1000000)) : ℤ)) =
      ((rnScaled q : ℕ) : ℤ) := by
    conv_rhs => rw [← hval]
    push_cast
    ring
  congr 1
  rw [Prod.mk.injEq]
  constructor
  · rw [hcast]
    rw [pad6_length _ hmod]
    rw [show (10 : ℕ) ^ 6 = 1000000 from by norm_num]
    rw [rnScaled_eq q hdvd]
    exact mkRat_scaled q hq0 hdvd
  · rw [List.length_append, List.length_cons, pad6_length _ hmod]
  done

/-- `parseNumber` on a serialized number followed by a separator. -/
theorem parseNumber_ok {f : Nat} {txt rest : List Char} {i : Nat} {q : ℚ} {c : Char}
    (hq0 : 0 ≤ q.num) (hdvd : q.den ∣ 1000000)
    (h : txt.drop i = renderNum q ++ c :: rest) (hc : c = ',' ∨ c = ']' ∨ c = '}') :
    parseVal (f + 1) .pNumber txt i = .ok (.number q, i + (renderNum q).length - 1) := by
  rw [parseVal, h, scanNum_renderNum q hq0 hdvd c rest hc]

theorem toStrC_null : toStrC .null = ['n', 'u', 'l', 'l'] := rfl

theorem toStrC_true : toStrC (.boolean true) = ['t', 'r', 'u', 'e'] := rfl

theorem toStrC_false : toStrC (.boolean false) = ['f', 'a', 'l', 's', 'e'] := rfl

theorem toStrC_number (q : ℚ) : toStrC (.number q) = renderNum q := rfl

theorem toStrC_string (s : List Char) : toStrC (.string s) = '"' :: s ++ ['"'] := rfl

theorem toStrC_array (xs : List Value) :
    toStrC (.array xs) = '[' :: serSeqC xs ++ [']'] := by
  rw [toStrC, toStr, serSeqC]
  norm_num

theorem toStrC_object (m : List (List Char × Value)) :
    toStrC (.object m) = '{' :: serPairsC m ++ ['}'] := by
  rw [toStrC, toStr, serPairsC]
  norm_num

theorem serSeqC_single (x : Value) : serSeqC [x] = toStrC x := by
  rw [serSeqC, serSeq, toStrC]
  simp

theorem serSeqC_cons2 (x y : Value) (t : List Value) :
    serSeqC (x :: y :: t) = toStrC x ++ ',' :: serSeqC (y :: t) := by
  rw [serSeqC, serSeq, toStrC, serSeqC]
  simp

theorem serPairsC_single (k : List Char) (x : Value) :
    serPairsC [(k, x)] = '"' :: k ++ '"' :: ':' :: ' ' :: toStrC x := by
  rw [serPairsC, serPairs, toStrC]
  simp

theorem serPairsC_cons2 (k : List Char) (x : Value) (p : List Char × Value)
    (t : List (List Char × Value)) :
    serPairsC ((k, x) :: p :: t) =
      '"' :: k ++ '"' :: ':' :: ' ' :: toStrC x ++ ',' :: serPairsC (p :: t) := by
  cases p
  rw [serPairsC, serPairs, toStrC, serPairsC]
  simp

/-- A C-locale control character (the class the round-trip law's string
restriction excludes). -/
def jIsCtl (c : Char) : Bool := c.toNat < 32 || c.toNat == 127

/-- A string payload or object key within the round-trip law's scope:
no quote and no control character. -/
def goodStr (s : List Char) : Bool := s.all fun c => c ≠ '"' && !jIsCtl c

/-- All elements share the leading element's dispatch class (the array
parser picks a single sub-parser from the first element's first
character). -/
def sameKind : List Value → Bool
  | [] => true
  | x :: t => t.all fun y => kindOf y == kindOf x

/-- Object keys are pairwise distinct. -/
def keysUnique : List (List Char × Value) → Bool
  | [] => true
  | (k, _) :: t => !(t.any fun p => p.1 == k) && keysUnique t

mutual

/-- The class of values on which the compact serialization is parsed back
exactly: Null and Boolean always; Numbers nonnegative with denominator
dividing 10⁶ (six decimal digits render exactly); Strings with no quote
and no control character; nonempty, dispatch-homogeneous Arrays of good
values; Objects with distinct good keys and good values. -/
def Good : Value → Bool
  | .null => true
  | .boolean _ => true
  | .number q => decide (0 ≤ q.num) && decide (q.den ∣ 1000000)
  | .string s => goodStr s
  | .array xs => !xs.isEmpty && sameKind xs && GoodL xs
  | .object m => keysUnique m && GoodP m

/-- `Good` over array elements. -/
def GoodL : List Value → Bool
  | [] => true
  | x :: t => Good x && GoodL t

/-- `Good` over object members (keys included). -/
def GoodP : List (List Char × Value) → Bool
  | [] => true
  | (k, x) :: t => goodStr k && Good x && GoodP t

end

mutual

/-- A sufficient fuel for `parseVal` on the serialization of a value. -/
def fuelNeed : Value → Nat
  | .array xs => 1 + arrNeed xs
  | .object m => 1 + objNeed m
  | _ => 1

/-- A sufficient fuel for `arrLoop` on a serialized element sequence. -/
def arrNeed : List Value → Nat
  | [] => 1
  | x :: t => 1 + max (fuelNeed x) (arrNeed t)

/-- A sufficient fuel for `objLoop` on a serialized member sequence. -/
def objNeed : List (List Char × Value) → Nat
  | [] => 1
  | (_, x) :: t => 1 + max (fuelNeed x) (objNeed t)

end

/-- The compact serialization of a `Good` value starts with a non-space
character that dispatches to that value's own sub-parser. -/
theorem toStrC_head (v : Value) (hg : Good v = true) :
    ∃ c t, toStrC v = c :: t ∧ jIsSpace c = false ∧ getParser c = .ok (kindOf v) := by
  cases v with
  | null => exact ⟨'n', _, rfl, by decide, by decide⟩
  | boolean b =>
    cases b
    · exact ⟨'f', _, rfl, by decide, by decide⟩
    · exact ⟨'t', _, rfl, by decide, by decide⟩
  | number q =>
    rw [Good, Bool.and_eq_true, decide_eq_true_eq, decide_eq_true_eq] at hg
    have hneg : ¬ q.num < 0 := by omega
    obtain ⟨a, A', hnd⟩ := List.exists_cons_of_ne_nil (natDigits_ne_nil (rnScaled q / 1000000))
    have ha : a.isDigit = true := natDigits_isDigit _ a (by rw [hnd]; simp)
    obtain ⟨hasp, _⟩ := isDigit_facts a ha
    refine ⟨a, A' ++ '.' :: pad6 (rnScaled q % 1000000), ?_, hasp, ?_⟩
    · rw [toStrC_number, renderNum, if_neg hneg, hnd]
      simp
    · rw [getParser_digit a ha]; rfl
  | string s => exact ⟨'"', _, rfl, by decide, rfl⟩
  | array xs =>
    exact ⟨'[', serSeqC xs ++ [']'], by rw [toStrC_array]; rfl, by decide, rfl⟩
  | object m =>
    exact ⟨'{', serPairsC m ++ ['}'], by rw [toStrC_object]; rfl, by decide, rfl⟩

/-- A compact serialization is never empty. -/
theorem toStrC_ne_nil (v : Value) (hg : Good v = true) : toStrC v ≠ [] := by
  obtain ⟨c, t, heq, _, _⟩ := toStrC_head v hg
  rw [heq]
  simp

/-- The characters that may directly follow a serialized value inside a
serialized container. -/
def sepChar (c : Char) : Prop := c = ',' ∨ c = ']' ∨ c = '}'

/-- The continuation constraint the round-trip induction carries: a
scalar's parse looks one token ahead, so a separator must follow;
an array or object reads its own closing bracket and needs nothing. -/
def restOK (v : Value) (rest : List Char) : Prop :=
  (∃ c t, rest = c :: t ∧ sepChar c) ∨ kindOf v = .pArray ∨ kindOf v = .pObject

/-- `objInsert` appends when the key is absent. -/
theorem objInsert_append (acc : List (List Char × Value)) (k : List Char) (x : Value)
    (h : ∀ q ∈ acc, q.1 ≠ k) : objInsert acc k x = acc ++ [(k, x)] := by
  rw [objInsert, if_neg]
  intro hc
  rw [List.any_eq_true] at hc
  obtain ⟨p, hp, hpk⟩ := hc
  exact h p hp (by simpa using hpk)

/-- The shape of the round-trip conclusion for one element of the
induction. -/
def RoundTrip (v : Value) : Prop :=
  ∀ (f : Nat) (txt : List Char) (i : Nat) (rest : List Char),
    fuelNeed v ≤ f →
    txt.drop i = toStrC v ++ rest →
    restOK v rest →
    parseVal f (kindOf v) txt i = .ok (v, i + (toStrC v).length - 1)

/-- The array element loop consumes a serialized nonempty homogeneous
element sequence up to (and including, as loop terminator) the closing
bracket. -/
theorem arrLoop_ser
    (n : Nat)
    (ih : ∀ v : Value, sizeOf v ≤ n → Good v = true → RoundTrip v) :
    ∀ (xs : List Value) (k : ParserKind), xs ≠ [] →
      (∀ x ∈ xs, sizeOf x ≤ n) → GoodL xs = true → (∀ x ∈ xs, kindOf x = k) →
      ∀ (g : Nat) (txt : List Char) (i : Nat) (acc : List Value) (rest' : List Char),
        arrNeed xs ≤ g →
        txt.drop (i + 1) = serSeqC xs ++ ']' :: rest' →
        arrLoop g k txt i acc = .ok (.array (acc ++ xs), i + 1 + (serSeqC xs).length) := by
  intro xs
  induction xs with
  | nil => intro k hne; exact absurd rfl hne
  | cons x t iht =>
    intro k _ hszs hgl hks g txt i acc rest' hg hdrop
    rw [GoodL, Bool.and_eq_true] at hgl
    have hkx : kindOf x = k := hks x (by simp)
    obtain ⟨c0, t0, hhead, hnsp, _⟩ := toStrC_head x hgl.1
    have hLpos : 1 ≤ (toStrC x).length := by rw [hhead]; simp
    cases g with
    | zero => rw [arrNeed] at hg; omega
    | succ g =>
      have hfx : fuelNeed x ≤ g := by
        rw [arrNeed] at hg
        have := le_max_left (fuelNeed x) (arrNeed t)
        omega
      rw [arrLoop]
      dsimp only
      cases t with
      | nil =>
        have hd1 : txt.drop (i + 1) = toStrC x ++ ']' :: rest' := by
          rw [hdrop, serSeqC_single]
        have hg1 : getc txt (i + 1) = c0 := getc_of_drop (by rw [hd1, hhead]; rfl)
        have hskip : skipSpaces txt i = i + 1 := skipSpaces_one (by rw [hg1]; exact hnsp)
        rw [hskip, ← hkx]
        rw [ih x (hszs x (by simp)) hgl.1 g txt (i + 1) (']' :: rest') hfx hd1
          (Or.inl ⟨']', rest', rfl, Or.inr (Or.inl rfl)⟩)]
        dsimp only
        have hpos : i + 1 + (toStrC x).length - 1 = i + (toStrC x).length := by omega
        rw [hpos]
        have hd2 : txt.drop (i + (toStrC x).length + 1) = ']' :: rest' := by
          have := drop_append_of_drop hd1
          rw [show i + (toStrC x).length + 1 = i + 1 + (toStrC x).length from by omega]
          exact this
        have hg2 : getc txt (i + (toStrC x).length + 1) = ']' := getc_of_drop hd2
        have hskip2 : skipSpaces txt (i + (toStrC x).length) = i + (toStrC x).length + 1 :=
          skipSpaces_one (by rw [hg2]; decide)
        rw [hskip2, hg2]
        rw [if_neg (by simp)]
        rw [Except.ok.injEq, Prod.mk.injEq]
        refine ⟨rfl, ?_⟩
        rw [serSeqC_single]
        omega
      | cons y t' =>
        have hd1 : txt.drop (i + 1) =
            toStrC x ++ ',' :: (serSeqC (y :: t') ++ ']' :: rest') := by
          rw [hdrop, serSeqC_cons2]
          simp
        have hg1 : getc txt (i + 1) = c0 := getc_of_drop (by rw [hd1, hhead]; rfl)
        have hskip : skipSpaces txt i = i + 1 := skipSpaces_one (by rw [hg1]; exact hnsp)
        rw [hskip, ← hkx]
        rw [ih x (hszs x (by simp)) hgl.1 g txt (i + 1)
          (',' :: (serSeqC (y :: t') ++ ']' :: rest')) hfx hd1
          (Or.inl ⟨',', _, rfl, Or.inl rfl⟩)]
        dsimp only
        have hpos : i + 1 + (toStrC x).length - 1 = i + (toStrC x).length := by omega
        rw [hpos]
        have hd2 : txt.drop (i + (toStrC x).length + 1) =
            ',' :: (serSeqC (y :: t') ++ ']' :: rest') := by
          have := drop_append_of_drop hd1
          rw [show i + (toStrC x).length + 1 = i + 1 + (toStrC x).length from by omega]
          exact this
        have hg2 : getc txt (i + (toStrC x).length + 1) = ',' := getc_of_drop hd2
        have hskip2 : skipSpaces txt (i + (toStrC x).length) = i + (toStrC x).length + 1 :=
          skipSpaces_one (by rw [hg2]; decide)
        rw [hskip2, hg2]
        rw [if_pos ⟨rfl, lt_length_of_drop hd2⟩]
        have hd3 : txt.drop (i + (toStrC x).length + 1 + 1) =
            serSeqC (y :: t') ++ ']' :: rest' := drop_succ_of_drop hd2
        have hgt : arrNeed (y :: t') ≤ g := by
          rw [arrNeed] at hg
          have := le_max_right (fuelNeed x) (arrNeed (y :: t'))
          omega
        rw [hkx]
        rw [iht k (by simp) (fun z hz => hszs z (by simp [hz])) hgl.2
          (fun z hz => hks z (by simp [hz])) g txt (i + (toStrC x).length + 1)
          (acc ++ [x]) rest' hgt hd3]
        rw [Except.ok.injEq, Prod.mk.injEq]
        constructor
        · simp
        · have hlen : (serSeqC (x :: y :: t')).length =
              (toStrC x).length + 1 + (serSeqC (y :: t')).length := by
            rw [serSeqC_cons2]
            simp
            omega
          omega

/-- A good key contains no quote character. -/
theorem goodStr_no_quote (s : List Char) (h : goodStr s = true) : ∀ ch ∈ s, ch ≠ '"' := by
  intro ch hch
  rw [goodStr, List.all_eq_true] at h
  have h2 := h ch hch
  rw [Bool.and_eq_true] at h2
  simpa using h2.1

/-- The object member loop consumes a serialized member sequence with
unique good keys up to (and including, as loop terminator) the closing
brace. -/
theorem objLoop_ser
    (n : Nat)
    (ih : ∀ v : Value, sizeOf v ≤ n → Good v = true → RoundTrip v) :
    ∀ (m' : List (List Char × Value)),
      (∀ p ∈ m', sizeOf p.2 ≤ n) → GoodP m' = true → keysUnique m' = true →
      ∀ (g : Nat) (txt : List Char) (i : Nat) (acc : List (List Char × Value))
        (rest' : List Char),
        objNeed m' ≤ g →
        (∀ p ∈ m', ∀ q ∈ acc, q.1 ≠ p.1) →
        txt.drop (i + 1) = serPairsC m' ++ '}' :: rest' →
        objLoop g txt i acc = .ok (.object (acc ++ m'), i + 1 + (serPairsC m').length) := by
  intro m'
  induction m' with
  | nil =>
    intro _ _ _ g txt i acc rest' hg _ hdrop
    cases g with
    | zero => rw [objNeed] at hg; omega
    | succ g =>
      rw [objLoop]
      have hd : txt.drop (i + 1) = '}' :: rest' := by simpa [serPairsC, serPairs] using hdrop
      have hskip : skipSpaces txt i = i + 1 :=
        skipSpaces_one (by rw [getc_of_drop hd]; decide)
      rw [hskip, getc_of_drop hd, if_pos rfl]
      simp [serPairsC, serPairs]
  | cons p t iht =>
    obtain ⟨k, x⟩ := p
    intro hszs hgp huniq g txt i acc rest' hg hdisj hdrop
    rw [GoodP, Bool.and_eq_true, Bool.and_eq_true] at hgp
    obtain ⟨⟨hkg, hxg⟩, htg⟩ := hgp
    rw [keysUnique, Bool.and_eq_true] at huniq
    have hxsz : sizeOf x ≤ n := hszs (k, x) (by simp)
    obtain ⟨c0, t0, hhead, hnsp, hgp0⟩ := toStrC_head x hxg
    have hLpos : 1 ≤ (toStrC x).length := by rw [hhead]; simp
    cases g with
    | zero => rw [objNeed] at hg; omega
    | succ g =>
      have hfx : fuelNeed x ≤ g := by
        rw [objNeed] at hg
        have := le_max_left (fuelNeed x) (objNeed t)
        omega
      -- the serialized continuation after this member's value
      obtain ⟨R, hR, hRsep, hRlen⟩ :
          ∃ R : List Char,
            txt.drop (i + 1) = '"' :: (k ++ '"' :: ':' :: ' ' :: (toStrC x ++ R)) ∧
            (∃ ch tl, R = ch :: tl ∧ sepChar ch) ∧
            (serPairsC ((k, x) :: t)).length + 1 + rest'.length =
              k.length + 4 + (toStrC x).length + R.length := by
        cases t with
        | nil =>
          refine ⟨'}' :: rest', ?_, ⟨'}', rest', rfl, Or.inr (Or.inr rfl)⟩, ?_⟩
          · rw [hdrop, serPairsC_single]
            simp
          · rw [serPairsC_single]
            simp
            omega
        | cons p' t'' =>
          refine ⟨',' :: (serPairsC (p' :: t'') ++ '}' :: rest'), ?_,
            ⟨',', _, rfl, Or.inl rfl⟩, ?_⟩
          · rw [hdrop, serPairsC_cons2 k x p' t'']
            simp
          · rw [serPairsC_cons2 k x p' t'']
            simp
            omega
      rw [objLoop]
      have hgq : getc txt (i + 1) = '"' := getc_of_drop hR
      have hskip1 : skipSpaces txt i = i + 1 := skipSpaces_one (by rw [hgq]; decide)
      rw [hskip1, hgq, if_neg (by decide)]
      dsimp only
      have hd2 : txt.drop (i + 2) = k ++ '"' :: (':' :: ' ' :: (toStrC x ++ R)) := by
        have := drop_succ_of_drop hR
        rw [show i + 1 + 1 = i + 2 from rfl] at this
        exact this
      have hklen : k.length + 1 ≤ txt.length + 1 := by
        have := length_of_drop hd2
        simp at this
        omega
      rw [show i + 1 + 1 = i + 2 from rfl]
      rw [scanKeyF_ok k (txt.length + 1) txt (i + 2) [] (':' :: ' ' :: (toStrC x ++ R)) hd2
        (goodStr_no_quote k hkg) hklen]
      dsimp only
      simp only [List.nil_append]
      have hd3 : txt.drop (i + 2 + k.length) = '"' :: (':' :: ' ' :: (toStrC x ++ R)) :=
        drop_append_of_drop hd2
      have hd4 : txt.drop (i + 2 + k.length + 1) = ':' :: (' ' :: (toStrC x ++ R)) :=
        drop_succ_of_drop hd3
      have hskip3 : skipSpaces txt (i + 2 + k.length) = i + 2 + k.length + 1 :=
        skipSpaces_one (by rw [getc_of_drop hd4]; decide)
      rw [hskip3]
      have hd5 : txt.drop (i + 2 + k.length + 2) = ' ' :: (toStrC x ++ R) := by
        have := drop_succ_of_drop hd4
        rw [show i + 2 + k.length + 1 + 1 = i + 2 + k.length + 2 from rfl] at this
        exact this
      have hd6 : txt.drop (i + 2 + k.length + 3) = toStrC x ++ R := by
        have := drop_succ_of_drop hd5
        rw [show i + 2 + k.length + 2 + 1 = i + 2 + k.length + 3 from rfl] at this
        exact this
      have hskip4 : skipSpaces txt (i + 2 + k.length + 1) = i + 2 + k.length + 3 := by
        have h1 : getc txt (i + 2 + k.length + 1 + 1) = ' ' := by
          rw [show i + 2 + k.length + 1 + 1 = i + 2 + k.length + 2 from rfl]
          exact getc_of_drop hd5
        have h2 : getc txt (i + 2 + k.length + 1 + 2) = c0 := by
          rw [show i + 2 + k.length + 1 + 2 = i + 2 + k.length + 3 from rfl]
          exact getc_of_drop (by rw [hd6, hhead]; rfl)
        have h3 := @skipSpaces_two txt (i + 2 + k.length + 1)
          (by rw [h1]; decide)
          (by
            have := lt_length_of_drop hd5
            omega)
          (by rw [h2]; exact hnsp)
        rw [h3]
      rw [hskip4]
      have hg6 : getc txt (i + 2 + k.length + 3) = c0 :=
        getc_of_drop (by rw [hd6, hhead]; rfl)
      rw [hg6, hgp0]
      dsimp only
      rw [ih x hxsz hxg g txt (i + 2 + k.length + 3) R hfx hd6 (Or.inl hRsep)]
      dsimp only
      have hpos : i + 2 + k.length + 3 + (toStrC x).length - 1 =
          i + 4 + k.length + (toStrC x).length := by omega
      rw [hpos]
      rw [objInsert_append acc k x (fun q hq => hdisj (k, x) (by simp) q hq)]
      have hd7 : txt.drop (i + 4 + k.length + (toStrC x).length + 1) = R := by
        have := drop_append_of_drop hd6
        rw [show i + 4 + k.length + (toStrC x).length + 1 =
          i + 2 + k.length + 3 + (toStrC x).length from by omega]
        exact this
      obtain ⟨ch, tl, hRc, hchsep⟩ := hRsep
      have hg7 : getc txt (i + 4 + k.length + (toStrC x).length + 1) = ch := by
        rw [hRc] at hd7
        exact getc_of_drop hd7
      have hskip5 : skipSpaces txt (i + 4 + k.length + (toStrC x).length) =
          i + 4 + k.length + (toStrC x).length + 1 :=
        skipSpaces_one (by
          rw [hg7]
          rcases hchsep with rfl | rfl | rfl <;> decide)
      rw [hskip5, hg7]
      cases t with
      | nil =>
        have hch : ch = '}' := by
          have h1 : serPairsC [(k, x)] ++ '}' :: rest' =
              '"' :: (k ++ '"' :: ':' :: ' ' :: (toStrC x ++ R)) := by rw [← hdrop, hR]
          rw [serPairsC_single, hRc] at h1
          simp at h1
          obtain ⟨h2, h3⟩ := h1
          first
          | exact h2.symm
          | exact h2
        rw [hch, if_neg (by simp)]
        rw [Except.ok.injEq, Prod.mk.injEq]
        refine ⟨rfl, ?_⟩
        rw [serPairsC_single]
        simp
        omega
      | cons p' t'' =>
        have hch : ch = ',' ∧ tl = serPairsC (p' :: t'') ++ '}' :: rest' := by
          have h1 : serPairsC ((k, x) :: p' :: t'') ++ '}' :: rest' =
              '"' :: (k ++ '"' :: ':' :: ' ' :: (toStrC x ++ R)) := by rw [← hdrop, hR]
          rw [serPairsC_cons2, hRc] at h1
          simp at h1
          obtain ⟨h2, h3⟩ := h1
          constructor
          · first
            | exact h2.symm
            | exact h2
          · first
            | exact h3.symm
            | exact h3
        obtain ⟨hch1, hch2⟩ := hch
        rw [hch1]
        rw [if_pos ⟨rfl, by
          have := lt_length_of_drop (hRc ▸ hd7)
          exact this⟩]
        have hd8 : txt.drop (i + 4 + k.length + (toStrC x).length + 1 + 1) =
            serPairsC (p' :: t'') ++ '}' :: rest' := by
          have := drop_succ_of_drop (hRc ▸ hd7)
          rw [hch2] at this
          exact this
        have hgt : objNeed (p' :: t'') ≤ g := by
          rw [objNeed] at hg
          have := le_max_right (fuelNeed x) (objNeed (p' :: t''))
          omega
        have hdisj2 : ∀ pp ∈ p' :: t'', ∀ q ∈ acc ++ [(k, x)], q.1 ≠ pp.1 := by
          intro pp hpp q hq
          rcases List.mem_append.1 hq with hq | hq
          · exact hdisj pp (by simp [hpp]) q hq
          · rcases List.mem_singleton.1 hq with rfl
            have h1 := huniq.1
            rw [Bool.not_eq_true'] at h1
            intro hcontra
            have : (p' :: t'').any (fun p => p.1 == k) = true := by
              rw [List.any_eq_true]
              exact ⟨pp, hpp, by simp [← hcontra]⟩
            rw [h1] at this
            cases this
        rw [iht (fun pp hpp => hszs pp (by simp [hpp])) htg huniq.2 g txt
          (i + 4 + k.length + (toStrC x).length + 1) (acc ++ [(k, x)]) rest' hgt hdisj2 hd8]
        rw [Except.ok.injEq, Prod.mk.injEq]
        constructor
        · simp
        · have hlen : (serPairsC ((k, x) :: p' :: t'')).length =
              k.length + (toStrC x).length + 5 + (serPairsC (p' :: t'')).length := by
            rw [serPairsC_cons2]
            simp
            omega
          omega

/-- In a homogeneous list every element has the head's dispatch class. -/
theorem sameKind_head (x : Value) (t : List Value) (h : sameKind (x :: t) = true) :
    ∀ z ∈ x :: t, kindOf z = kindOf x := by
  intro z hz
  rcases List.mem_cons.1 hz with rfl | hz
  · rfl
  · rw [sameKind, List.all_eq_true] at h
    simpa using h z hz

/-- The master round-trip statement: parsing the compact serialization of
a good value at its position recovers the value, leaving the index on the
last character consumed. -/
theorem roundtrip_master :
    ∀ (N : Nat) (v : Value), sizeOf v ≤ N → Good v = true → RoundTrip v := by
  intro N
  induction N with
  | zero => intro v h; cases v <;> simp at h
  | succ n ih =>
    intro v hsz hg f txt i rest hf hdrop hrest
    cases v with
    | null =>
      cases f with
      | zero => simp [fuelNeed] at hf
      | succ f' => exact parseNull_ok hdrop
    | boolean b =>
      cases f with
      | zero => simp [fuelNeed] at hf
      | succ f' =>
        cases b
        · exact parseBoolean_false_ok hdrop
        · exact parseBoolean_true_ok hdrop
    | number q =>
      cases f with
      | zero => simp [fuelNeed] at hf
      | succ f' =>
        rw [Good, Bool.and_eq_true, decide_eq_true_eq, decide_eq_true_eq] at hg
        rcases hrest with ⟨c, t, rfl, hsep⟩ | h | h
        · exact parseNumber_ok hg.1 hg.2 hdrop hsep
        · cases h
        · cases h
    | string s =>
      cases f with
      | zero => simp [fuelNeed] at hf
      | succ f' =>
        rcases hrest with ⟨c, t, rfl, _⟩ | h | h
        · rw [show kindOf (.string s) = .pString from rfl]
          have hd : txt.drop i = '"' :: s ++ '"' :: c :: t := by
            rw [hdrop, toStrC_string]
            simp
          rw [parseString_ok hd (goodStr_no_quote s (by rwa [Good] at hg))]
          rw [Except.ok.injEq, Prod.mk.injEq]
          refine ⟨rfl, ?_⟩
          rw [toStrC_string]
          simp
          omega
        · cases h
        · cases h
    | array xs =>
      cases f with
      | zero => simp [fuelNeed] at hf
      | succ f' =>
        rw [Good, Bool.and_eq_true, Bool.and_eq_true] at hg
        obtain ⟨⟨hne, hsk⟩, hgl⟩ := hg
        obtain ⟨x1, t1, rfl⟩ := List.exists_cons_of_ne_nil (by simpa using hne)
        have hszs : ∀ x ∈ x1 :: t1, sizeOf x ≤ n := by
          intro x hx
          have h1 := List.sizeOf_lt_of_mem hx
          have h2 := Value.array.sizeOf_spec (x1 :: t1)
          omega
        obtain ⟨c0, t0, hhead, hnsp, hgp0⟩ := toStrC_head x1 (by
          rw [GoodL, Bool.and_eq_true] at hgl
          exact hgl.1)
        have hd1 : txt.drop (i + 1) = serSeqC (x1 :: t1) ++ ']' :: rest := by
          have := @drop_succ_of_drop txt i '[' (serSeqC (x1 :: t1) ++ ']' :: rest)
          refine this ?_
          rw [hdrop, toStrC_array]
          simp
        have hd2 : txt.drop (i + 1) = toStrC x1 ++
            (serSeqC (x1 :: t1)).drop (toStrC x1).length ++ ']' :: rest := by
          rw [hd1]
          cases t1 with
          | nil => rw [serSeqC_single]; simp
          | cons y t2 => rw [serSeqC_cons2]; simp
        have hg1 : getc txt (i + 1) = c0 := by
          refine getc_of_drop (t := t0 ++ (serSeqC (x1 :: t1)).drop (toStrC x1).length ++
            ']' :: rest) ?_
          rw [hd2, hhead]
          simp
        have hskip : skipSpaces txt i = i + 1 := skipSpaces_one (by rw [hg1]; exact hnsp)
        rw [show kindOf (.array (x1 :: t1)) = .pArray from rfl, parseVal]
        try dsimp only
        rw [hskip, hg1, hgp0]
        dsimp only
        have hfneed : arrNeed (x1 :: t1) ≤ f' := by
          simp [fuelNeed] at hf
          omega
        rw [show i + 1 - 1 = i from by omega]
        rw [arrLoop_ser n ih (x1 :: t1) (kindOf x1) (by simp) hszs hgl
          (sameKind_head x1 t1 hsk) f' txt i [] rest hfneed hd1]
        rw [Except.ok.injEq, Prod.mk.injEq]
        refine ⟨rfl, ?_⟩
        rw [toStrC_array]
        simp
        omega
    | object m =>
      cases f with
      | zero => simp [fuelNeed] at hf
      | succ f' =>
        rw [Good, Bool.and_eq_true] at hg
        obtain ⟨huniq, hgp⟩ := hg
        have hszs : ∀ p ∈ m, sizeOf p.2 ≤ n := by
          intro p hp
          obtain ⟨a, b⟩ := p
          have h1 := List.sizeOf_lt_of_mem hp
          have h2 := Value.object.sizeOf_spec m
          have h3 : sizeOf ((a, b) : List Char × Value) = 1 + sizeOf a + sizeOf b := rfl
          show sizeOf b ≤ n
          omega
        have hd1 : txt.drop (i + 1) = serPairsC m ++ '}' :: rest := by
          have := @drop_succ_of_drop txt i '{' (serPairsC m ++ '}' :: rest)
          refine this ?_
          rw [hdrop, toStrC_object]
          simp
        rw [show kindOf (.object m) = .pObject from rfl, parseVal]
        have hfneed : objNeed m ≤ f' := by
          simp [fuelNeed] at hf
          omega
        rw [objLoop_ser n ih m hszs hgp huniq f' txt i [] rest hfneed
          (by intro p hp q hq; cases hq) hd1]
        rw [Except.ok.injEq, Prod.mk.injEq]
        refine ⟨rfl, ?_⟩
        rw [toStrC_object]
        simp
        omega

/-- `arrNeed` is bounded by the length of the serialized element sequence. -/
theorem arrNeed_le (n : Nat)
    (ih : ∀ v, sizeOf v ≤ n → fuelNeed v ≤ (toStrC v).length + 1) :
    ∀ xs : List Value, (∀ x ∈ xs, sizeOf x ≤ n) →
      arrNeed xs ≤ (serSeqC xs).length + 2 := by
  intro xs
  induction xs with
  | nil =>
    intro _
    rw [show serSeqC [] = [] from rfl, arrNeed]
    simp
  | cons x t iht =>
    intro hsz
    have h1 := ih x (hsz x (by simp))
    cases t with
    | nil =>
      rw [serSeqC_single, arrNeed]
      have hm : max (fuelNeed x) (arrNeed ([] : List Value)) ≤ (toStrC x).length + 1 := by
        rw [show arrNeed ([] : List Value) = 1 from rfl]
        exact Nat.max_le.2 ⟨h1, by omega⟩
      omega
    | cons y t' =>
      have h2 := iht (fun z hz => hsz z (List.mem_cons_of_mem x hz))
      rw [serSeqC_cons2, arrNeed]
      have hm : max (fuelNeed x) (arrNeed (y :: t')) ≤
          (toStrC x).length + (serSeqC (y :: t')).length + 2 :=
        Nat.max_le.2 ⟨by omega, by omega⟩
      simp only [List.length_append, List.length_cons]
      omega

/-- `objNeed` is bounded by the length of the serialized member sequence. -/
theorem objNeed_le (n : Nat)
    (ih : ∀ v, sizeOf v ≤ n → fuelNeed v ≤ (toStrC v).length + 1) :
    ∀ m : List (List Char × Value), (∀ p ∈ m, sizeOf p.2 ≤ n) →
      objNeed m ≤ (serPairsC m).length + 2 := by
  intro m
  induction m with
  | nil =>
    intro _
    rw [show serPairsC [] = [] from rfl, objNeed]
    simp
  | cons p t iht =>
    obtain ⟨k, x⟩ := p
    intro hsz
    have h1 := ih x (hsz (k, x) (by simp))
    cases t with
    | nil =>
      rw [serPairsC_single, objNeed]
      have hm : max (fuelNeed x) (objNeed ([] : List (List Char × Value))) ≤
          (toStrC x).length + 1 := by
        rw [show objNeed ([] : List (List Char × Value)) = 1 from rfl]
        exact Nat.max_le.2 ⟨h1, by omega⟩
      simp only [List.length_append, List.length_cons]
      omega
    | cons p' t' =>
      have h2 := iht (fun z hz => hsz z (List.mem_cons_of_mem (k, x) hz))
      rw [serPairsC_cons2, objNeed]
      have hm : max (fuelNeed x) (objNeed (p' :: t')) ≤
          (toStrC x).length + (serPairsC (p' :: t')).length + 2 :=
        Nat.max_le.2 ⟨by omega, by omega⟩
      simp only [List.length_append, List.length_cons]
      omega

/-- The fuel a value's round trip consumes is bounded by the length of its
compact serialization (so `parse`'s fuel `txt.length + 3` always suffices). -/
theorem fuelNeed_le : ∀ (N : Nat) (v : Value), sizeOf v ≤ N →
    fuelNeed v ≤ (toStrC v).length + 1 := by
  intro N
  induction N with
  | zero => intro v h; cases v <;> simp at h
  | succ n ih =>
    intro v hsz
    cases v with
    | null => exact Nat.le_add_left 1 _
    | boolean b => exact Nat.le_add_left 1 _
    | number q => exact Nat.le_add_left 1 _
    | string s => exact Nat.le_add_left 1 _
    | array xs =>
      have hszs : ∀ x ∈ xs, sizeOf x ≤ n := by
        intro x hx
        have h1 := List.sizeOf_lt_of_mem hx
        have h2 := Value.array.sizeOf_spec xs
        omega
      have h := arrNeed_le n ih xs hszs
      rw [show fuelNeed (.array xs) = 1 + arrNeed xs from rfl, toStrC_array]
      simp only [List.length_append, List.length_cons]
      omega
    | object m =>
      have hszs : ∀ p ∈ m, sizeOf p.2 ≤ n := by
        intro p hp
        obtain ⟨a, b⟩ := p
        have h1 := List.sizeOf_lt_of_mem hp
        have h2 := Value.object.sizeOf_spec m
        have h3 : sizeOf ((a, b) : List Char × Value) = 1 + sizeOf a + sizeOf b := rfl
        show sizeOf b ≤ n
        omega
      have h := objNeed_le n ih m hszs
      rw [show fuelNeed (.object m) = 1 + objNeed m from rfl, toStrC_object]
      simp only [List.length_append, List.length_cons]
      omega

/-- Top-level round trip: `parse` applied to the compact serialization of a
good container value, followed by arbitrary trailing characters, recovers
exactly that value. -/
theorem parse_toStrC (v : Value) (rest : List Char)
    (hroot : kindOf v = .pArray ∨ kindOf v = .pObject)
    (hg : Good v = true) :
    parse (toStrC v ++ rest) = .ok v := by
  have hrt := roundtrip_master (sizeOf v) v le_rfl hg
  have hfuel : fuelNeed v ≤ (toStrC v ++ rest).length + 3 := by
    have h1 := fuelNeed_le (sizeOf v) v le_rfl
    simp only [List.length_append] at *
    omega
  have hdrop : (toStrC v ++ rest).drop 0 = toStrC v ++ rest := rfl
  have hres := hrt ((toStrC v ++ rest).length + 3) (toStrC v ++ rest) 0 rest hfuel hdrop
    (Or.inr hroot)
  cases v with
  | null => rcases hroot with h | h <;> simp [kindOf] at h
  | boolean b => rcases hroot with h | h <;> simp [kindOf] at h
  | number q => rcases hroot with h | h <;> simp [kindOf] at h
  | string s => rcases hroot with h | h <;> simp [kindOf] at h
  | array xs =>
    rw [show kindOf (Value.array xs) = .pArray from rfl] at hres
    have hlen : ¬ (toStrC (Value.array xs) ++ rest).length < 2 := by
      rw [toStrC_array]
      simp
      omega
    have hg0 : getc (toStrC (Value.array xs) ++ rest) 0 = '[' := by
      rw [toStrC_array]
      rfl
    have hdi : dispatchIndex (toStrC (Value.array xs) ++ rest) = 0 := by
      rw [dispatchIndex, if_neg]
      exact fun h => h.2 hg0
    rw [parse, if_neg hlen, hdi, hg0]
    rw [if_neg (by decide : ¬ ('[' : Char) = '{'), if_pos rfl, hres]
    rfl
  | object m =>
    rw [show kindOf (Value.object m) = .pObject from rfl] at hres
    have hlen : ¬ (toStrC (Value.object m) ++ rest).length < 2 := by
      rw [toStrC_object]
      simp
      omega
    have hg0 : getc (toStrC (Value.object m) ++ rest) 0 = '{' := by
      rw [toStrC_object]
      rfl
    have hdi : dispatchIndex (toStrC (Value.object m) ++ rest) = 0 := by
      rw [dispatchIndex, if_neg]
      exact fun h => h.1 hg0
    rw [parse, if_neg hlen, hdi, hg0, if_pos rfl, hres]
    rfl

/-- Counterexample for C1 as stated: three `Good`-violating trees built only
from the allowed variants, with no quote or control character in any string,
that the claimed universal round-trip law fails on.  The empty array
serializes to a text the parser rejects (its element loop dispatches on `]`);
a negative number serializes with a leading `-` the parser rejects (its
dispatcher accepts only digits); and `10⁻⁷` survives parsing only as `0`
(six-digit rendering), so the recovered tree is not structurally equal. -/
theorem c1_counterexample :
    parse (toStrC (.array [])) = .error (.invalidSymbol ']') ∧
    parse (toStrC (.array [.number (mkRat (-1) 1)])) = .error (.invalidSymbol '-') ∧
    parse (toStrC (.array [.number (mkRat 1 10000000)])) = .ok (.array [.number 0]) ∧
    (mkRat 1 10000000 : ℚ) ≠ 0 := by
  refine ⟨by decide, by decide, by decide, by decide⟩

/-- C1 (amended): the round-trip law `parse (to_string v (-1)) = v` holds
for every tree whose root is an Array or Object, whose strings and keys
contain no quote and no control character, whose numbers are nonnegative
with denominator dividing 10⁶ (rendered exactly by the six-digit format),
whose arrays are nonempty and dispatch-homogeneous, and whose object keys
are distinct. -/
theorem c1_roundtrip (v : Value)
    (hroot : kindOf v = .pArray ∨ kindOf v = .pObject)
    (hg : Good v = true) :
    parse (toStrC v) = .ok v := by
  have h := parse_toStrC v [] hroot hg
  rwa [List.append_nil] at h

/-- Witness for C1 (amended) at a concrete nested tree: an object holding a
null and a homogeneous number array round-trips through the compact
serializer and the parser. -/
theorem c1_witness :
    (kindOf (.object [(['a'], .null),
        (['b'], .array [.number (mkRat 3 2), .number 2])]) = .pArray ∨
      kindOf (.object [(['a'], .null),
        (['b'], .array [.number (mkRat 3 2), .number 2])]) = .pObject) ∧
    Good (.object [(['a'], .null),
        (['b'], .array [.number (mkRat 3 2), .number 2])]) = true ∧
    parse (toStrC (.object [(['a'], .null),
        (['b'], .array [.number (mkRat 3 2), .number 2])])) =
      .ok (.object [(['a'], .null),
        (['b'], .array [.number (mkRat 3 2), .number 2])]) :=
  ⟨by decide, by decide, c1_roundtrip _ (by decide) (by decide)⟩

/-- Counterexample for C10 as stated: the text `{"a": null` (with no closing
brace) parses successfully as a one-member object, because after the value
the member loop's `skipSpaces` walks past the end of the text and the
loop's exit test reads the out-of-range `'\0'`, which is neither `,` nor a
new key, so the loop returns what it has.  Appending `,x` to that
successfully-parsed prefix makes `parse` fail: the parser does examine input
past the prefix it recognized, refuting the claim's universal form. -/
theorem c10_counterexample :
    parse ['{', '"', 'a', '"', ':', ' ', 'n', 'u', 'l', 'l'] =
      .ok (.object [(['a'], .null)]) ∧
    parse (['{', '"', 'a', '"', ':', ' ', 'n', 'u', 'l', 'l'] ++ [',', 'x']) =
      .error (.invalidSymbol '\x00') := by
  refine ⟨by decide, by decide⟩

/-- C10 (amended): when the prefix is the complete compact serialization of
a good container value, `parse` stops at the container's closing bracket
and silently ignores arbitrary trailing characters, returning the value
built from the prefix. -/
theorem c10_trailing_ignored (v : Value) (rest : List Char)
    (hroot : kindOf v = .pArray ∨ kindOf v = .pObject)
    (hg : Good v = true) :
    parse (toStrC v ++ rest) = .ok v :=
  parse_toStrC v rest hroot hg

/-- Witness for C10 (amended): a serialized singleton array followed by
alphabetic garbage parses to the array, the garbage ignored. -/
theorem c10_witness :
    (kindOf (.array [.null]) = .pArray ∨ kindOf (.array [.null]) = .pObject) ∧
    Good (.array [.null]) = true ∧
    parse (toStrC (.array [.null]) ++ ['g', 'a', 'r', 'b', 'a', 'g', 'e']) =
      .ok (.array [.null]) :=
  ⟨by decide, by decide, c10_trailing_ignored _ _ (by decide) (by decide)⟩

/-- Witness for C9 (amended): a compact two-member object with a nested
array serializes with no newline, no tab, and exactly two spaces. -/
theorem c9_witness :
    (toStr (.object [(['a'], .array [.null, .boolean true]), (['b'], .number 1)])
      (-1)).count '\n' = 0 ∧
    (toStr (.object [(['a'], .array [.null, .boolean true]), (['b'], .number 1)])
      (-1)).count '\t' = 0 ∧
    (toStr (.object [(['a'], .array [.null, .boolean true]), (['b'], .number 1)])
      (-1)).count ' ' =
      objEntries (.object [(['a'], .array [.null, .boolean true]), (['b'], .number 1)]) :=
  c9_compact_whitespace
    (.object [(['a'], .array [.null, .boolean true]), (['b'], .number 1)])
    (-1) (by decide) (by decide)
